import Mathlib

/-!
Verification of the numeric engine of the `matec` interactive matrix
calculator (Rust sources under `src/`).

The engine works on IEEE-754 doubles; here `f64` values are modelled as
exact rationals (`ℚ`).  The decimal literals of the source are read as the
exact decimal values they denote (`EPSILON = 1e-12` becomes `1/10^12`,
`f64::MIN_POSITIVE = 2^-1022` is exact).  Machine integers (`u64`/`usize`,
64-bit platform) are modelled as `ℕ` with explicit truncation/saturation at
the casts and `% 2^64` at the wrapping multiplications.  Fallible Rust
functions returning `Result` are modelled with `Except String`.

Imperative loops are translated into structural recursions: `for` loops
over a numeric range become recursions on a fuel counter equal to the
number of remaining iterations (so every definition evaluates by `rfl` /
`decide`), and loops over an index list become recursions on that list.
Bounds-checked `get`/`set` calls whose indices are (provably) always in
range inside the elimination loops are translated with the total accessors
`getU` / `setU`; the surrounding algorithms only ever index inside the
matrix, so the `?`-propagated "Indice fuera de rango" branches of the
source are unreachable there.
-/

set_option maxRecDepth 1000000

/-- Decidable equality of `Except` results, for evaluating the embedded
functions on concrete inputs. -/
instance {ε α : Type} [DecidableEq ε] [DecidableEq α] : DecidableEq (Except ε α) := fun a b =>
  match a, b with
  | .error x, .error y =>
      if h : x = y then .isTrue (by rw [h])
      else .isFalse (fun hc => h (by injection hc))
  | .ok x, .ok y =>
      if h : x = y then .isTrue (by rw [h])
      else .isFalse (fun hc => h (by injection hc))
  | .error _, .ok _ => .isFalse (fun hc => Except.noConfusion hc)
  | .ok _, .error _ => .isFalse (fun hc => Except.noConfusion hc)

namespace Matec

/-- `src/utils.rs`: `EPSILON = 1e-12` from `nearly_equal`.  (Given in
normalized numerator/denominator form so that it evaluates in constant
depth; `EPSILON_MIN_POSITIVE_values` checks the values.) -/
def EPSILON : ℚ := Rat.mk' 1 1000000000000

/-- `std::f64::MIN_POSITIVE = 2.2250738585072014e-308`, whose exact value
is `2^-1022` (in normalized numerator/denominator form; the denominator
numeral is `2^1022`, see `EPSILON_MIN_POSITIVE_values`). -/
def MIN_POSITIVE : ℚ :=
  Rat.mk' 1 44942328371557897693232629769725618340449424473557664318357520289433168951375240783177119330601884005280028469967848339414697442203604155623211857659868531094441973356216371319075554900311523529863270738021251442209537670585615720368478277635206809290837627671146574559986811484619929076208839082406056034304

/-- Sanity check: the two constants are the claimed powers. -/
theorem EPSILON_MIN_POSITIVE_values :
    MIN_POSITIVE = 1 / ((2 ^ 1022 : ℕ) : ℚ) ∧ EPSILON = 1 / ((10 ^ 12 : ℕ) : ℚ) := by
  constructor
  · unfold MIN_POSITIVE
    rw [Rat.mk'_eq_divInt, Rat.divInt_eq_div]
    norm_num
  · unfold EPSILON
    rw [Rat.mk'_eq_divInt, Rat.divInt_eq_div]
    norm_num

/-- `src/utils.rs` lines 6-23: the tolerance comparator `nearly_equal`. -/
def nearly_equal (a b : ℚ) : Bool :=
  let abs_a := |a|
  let abs_b := |b|
  let diff := |a - b|
  if a = b then
    -- shortcut, handles infinities
    true
  else if a = 0 ∨ b = 0 ∨ (abs_a + abs_b < MIN_POSITIVE) then
    -- a or b is zero or both are extremely close to it
    decide (diff < EPSILON * MIN_POSITIVE)
  else
    -- use relative error
    decide (diff / (abs_a + abs_b) < EPSILON)

/-- Rust `f64::trunc` (round toward zero), on the rational model. -/
def rustTrunc (x : ℚ) : ℚ :=
  if 0 ≤ x then ((⌊x⌋ : ℤ) : ℚ) else -((⌊-x⌋ : ℤ) : ℚ)

/-- Rust `f64::fract`: `x - x.trunc()`. -/
def fract (x : ℚ) : ℚ := x - rustTrunc x

/-- `usize::MAX = u64::MAX` on the 64-bit platform the program targets. -/
def USIZE_MAX : ℕ := 2 ^ 64 - 1

/-- The Rust cast `x as u64` (= `as usize` on a 64-bit platform):
truncation toward zero, negative values saturate to `0`, values beyond
`u64::MAX` saturate to `u64::MAX`. -/
def rustCastToU64 (x : ℚ) : ℕ := min ⌊x⌋.toNat USIZE_MAX

/-- `src/matrix/mod.rs` lines 20-25: the dense row-major matrix.
`data` is stored row-major, entry `(r, c)` at linear index `r*cols + c`. -/
structure Matrix where
  rows : ℕ
  cols : ℕ
  data : List ℚ
deriving Repr, DecidableEq

/-- The representation invariant of `Matrix` (spec §3): the backing vector
always holds exactly `rows*cols` elements. -/
def Matrix.wf (m : Matrix) : Prop := m.data.length = m.rows * m.cols

instance (m : Matrix) : Decidable m.wf := by unfold Matrix.wf; infer_instance

/-- Total read of entry `(r, c)`: `data[r*cols + c]`, defaulting to `0` out
of range.  Models the always-in-range `get(...).unwrap()` / `get(...)?`
reads inside the elimination loops. -/
def getU (m : Matrix) (r c : ℕ) : ℚ := m.data.getD (r * m.cols + c) 0

/-- Total write of entry `(r, c)` (`List.set` ignores out-of-range writes).
Models the always-in-range `set(...)?` writes inside the elimination
loops. -/
def setU (m : Matrix) (r c : ℕ) (v : ℚ) : Matrix :=
  ⟨m.rows, m.cols, m.data.set (r * m.cols + c) v⟩

namespace Matrix

/-- `src/matrix/mod.rs` lines 35-41: `Matrix::new`, zero-filled. -/
def new (rows cols : ℕ) : Matrix := ⟨rows, cols, List.replicate (rows * cols) 0⟩

/-- `src/matrix/mod.rs` lines 44-50: `Matrix::from_scalar`. -/
def from_scalar (scalar : ℚ) : Matrix := ⟨1, 1, [scalar]⟩

/-- `src/matrix/mod.rs` lines 54-76: `Matrix::from_2d`.  When every row has
the length of the first one the writes `data[i*cols+j] = val` fill the
zero matrix `new(rows, cols)` completely, row by row, i.e. the data is the
concatenation of the rows. -/
def from_2d (nested : List (List ℚ)) : Except String Matrix :=
  if nested.length = 0 then .ok ⟨0, 0, []⟩
  else
    let cols := (nested.headD []).length
    if nested.all (fun row => row.length = cols) then
      .ok ⟨nested.length, cols, nested.flatten⟩
    else .error "Todas las filas deben tener la misma cantidad de columnas"

/-- `src/matrix/mod.rs` lines 79-85: `Matrix::identity`.  `new(size, size)`
followed by `data[i*size+i] = 1.0` for every `i < size`: linear index
`idx` holds `1` exactly when `idx / size = idx % size`. -/
def identity (size : ℕ) : Matrix :=
  ⟨size, size, (List.range (size * size)).map
    (fun idx => if idx / size = idx % size then 1 else 0)⟩

/-- `src/matrix/mod.rs` lines 174-180: bounds-checked `Matrix::get`. -/
def get (m : Matrix) (row col : ℕ) : Except String ℚ :=
  if row ≥ m.rows ∨ col ≥ m.cols then .error "Indice fuera de rango"
  else .ok (getU m row col)

/-- `src/matrix/mod.rs` lines 183-190: bounds-checked `Matrix::set`. -/
def set (m : Matrix) (row col : ℕ) (val : ℚ) : Except String Matrix :=
  if row ≥ m.rows ∨ col ≥ m.cols then .error "Indice fuera de rango"
  else .ok (setU m row col val)

/-- `src/matrix/mod.rs` lines 89-96: elemental matrix of type I (swaps the
rows `i` and `j` when multiplied on the left). -/
def elemental_i (size i j : ℕ) : Except String Matrix := do
  let m1 ← set (identity size) i i 0
  let m2 ← set m1 i j 1
  let m3 ← set m2 j j 0
  set m3 j i 1

/-- `src/matrix/mod.rs` lines 100-104: elemental matrix of type II (scales
row `i` by `scalar` when multiplied on the left). -/
def elemental_ii (size i : ℕ) (scalar : ℚ) : Except String Matrix :=
  set (identity size) i i scalar

/-- `src/matrix/mod.rs` lines 108-117: elemental matrix of type III (adds
`scalar` times row `j` to row `i` when multiplied on the left). -/
def elemental_iii (size i j : ℕ) (scalar : ℚ) : Except String Matrix :=
  set (identity size) i j scalar

/-- `src/matrix/mod.rs` lines 193-205: `rows()`, `cols()`, `is_square`. -/
def is_square (m : Matrix) : Bool := m.rows == m.cols

/-- The data of the elementwise sum: `Cij = Aij + Bij`
(`src/matrix/mod.rs` lines 125-132, with identical row-major layout on
both operands the double loop reads and writes the same linear index). -/
def addData (l r : Matrix) : List ℚ :=
  (List.range (l.rows * l.cols)).map (fun idx => l.data.getD idx 0 + r.data.getD idx 0)

/-- `src/matrix/mod.rs` lines 120-134: `Matrix::add`. -/
def add (l r : Matrix) : Except String Matrix :=
  if l.rows ≠ r.rows ∨ l.cols ≠ r.cols then
    .error "La suma de matrices solo está definida para matrices de igual dimensión"
  else .ok ⟨l.rows, l.cols, addData l r⟩

/-- The inner accumulation loop of `Matrix::multiply`
(`src/matrix/mod.rs` lines 150-157): `sum += A[m][n] * B[n][p]`. -/
def dotU (l r : Matrix) (m p : ℕ) : ℚ :=
  (List.range l.cols).foldl (fun sum n => sum + getU l m n * getU r n p) 0

/-- The (unchecked) product matrix of `Matrix::multiply`: an
`l.rows × r.cols` matrix whose `(m, p)` entry is `dotU l r m p`. -/
def mulU (l r : Matrix) : Matrix :=
  ⟨l.rows, r.cols, (List.range (l.rows * r.cols)).map
    (fun idx => dotU l r (idx / r.cols) (idx % r.cols))⟩

/-- `src/matrix/mod.rs` lines 137-163: `Matrix::multiply`. -/
def multiply (l r : Matrix) : Except String Matrix :=
  if l.cols ≠ r.rows then
    .error "La multiplicación de matrices solo está definida para matrices de MxN y NxP"
  else .ok (mulU l r)

/-- `src/matrix/mod.rs` lines 262-269: `Matrix::scale` (iterates the
matrix entries in row-major order and multiplies each by the scalar). -/
def scale (m : Matrix) (scalar : ℚ) : Matrix :=
  ⟨m.rows, m.cols, (List.range (m.rows * m.cols)).map
    (fun idx => m.data.getD idx 0 * scalar)⟩

/-- `src/matrix/mod.rs` lines 252-259: `Matrix::transpose`
(`T[j][i] = A[i][j]`; linear index `idx = j*rows + i` of the `cols × rows`
result). -/
def transpose (m : Matrix) : Matrix :=
  ⟨m.cols, m.rows, (List.range (m.cols * m.rows)).map
    (fun idx => getU m (idx % m.rows) (idx / m.rows))⟩

end Matrix

/-- The pivot search shared verbatim by `determinant`, `inverse` and
`linsolve` (`src/matrix/mod.rs` lines 300-309 etc.):
`while !found && i < n`, starting at `i = k+1`, stopping at the first row
whose entry in column `k` is not tolerance-zero. -/
def findPivot (m : Matrix) (n k : ℕ) : Option ℕ :=
  (List.range' (k + 1) (n - (k + 1))).find? (fun i => ! nearly_equal (getU m i k) 0)

/-- The column-by-column row swap of `determinant` and `linsolve`
(`src/matrix/mod.rs` lines 316-320): for each `j` in the given index list,
exchange the entries `(k, j)` and `(i, j)`. -/
def swapGo (k i : ℕ) : List ℕ → Matrix → Matrix
  | [], m => m
  | j :: js, m =>
      let tmp := getU m k j
      let m1 := setU m k j (getU m i j)
      let m2 := setU m1 i j tmp
      swapGo k i js m2

/-- Row swap over columns `0..bound` (`for j in 0..n`). -/
def swapRowsFull (m : Matrix) (bound k i : ℕ) : Matrix :=
  swapGo k i (List.range bound) m

/-- The inner elimination loop `for j in k..n` of `determinant` /
`linsolve` (`src/matrix/mod.rs` lines 336-339): subtract `factor` times
row `k` from row `i`, on each column of the given index list. -/
def elimRowGo (k i : ℕ) (factor : ℚ) : List ℕ → Matrix → Matrix
  | [], m => m
  | j :: js, m => elimRowGo k i factor js (setU m i j (getU m i j - factor * getU m k j))

/-- The outer elimination loop `for i in (k+1)..n` of `determinant`
(`src/matrix/mod.rs` lines 329-343): `factor = A[i][k] / pivot`, then the
row combination on columns `k..n`. -/
def elimBelowGo (n k : ℕ) (p : ℚ) : List ℕ → Matrix → Matrix
  | [], m => m
  | i :: is, m => elimBelowGo n k p is (elimRowGo k i (getU m i k / p) (List.range' k (n - k)) m)

/-- Elimination below the pivot, rows `k+1..n`, columns `k..n`. -/
def elimBelow (m : Matrix) (n k : ℕ) (p : ℚ) : Matrix :=
  elimBelowGo n k p (List.range' (k + 1) (n - (k + 1))) m

/-- The elimination loop `for k in 0..n` of `Matrix::determinant`
(`src/matrix/mod.rs` lines 295-349), recursion over the list of remaining
loop indices (`List.range n` at the call site). -/
def detGo (n : ℕ) : List ℕ → Matrix → ℚ → ℚ
  | [], _, det => det
  | k :: ks, m, det =>
      let pivot := getU m k k
      if nearly_equal pivot 0 then
        match findPivot m n k with
        | none => 0                     -- no row found: the determinant is 0
        | some i =>
            let p := getU m i k         -- the pivot value found by the search
            let m1 := swapRowsFull m n k i
            let m2 := elimBelow m1 n k p
            detGo n ks m2 (-det * getU m2 k k)
      else
        let m2 := elimBelow m n k pivot
        detGo n ks m2 (det * getU m2 k k)

/-- `src/matrix/mod.rs` lines 273-353: `Matrix::determinant`, Gaussian
elimination to upper-triangular form accumulating the product of the
pivots (sign flipped on every row swap). -/
def Matrix.determinant (m : Matrix) : Except String ℚ :=
  if !(Matrix.is_square m) then
    .error "El determinante solo está definida para matrices cuadradas."
  else .ok (detGo m.rows (List.range m.rows) m 1)

/-- The elimination loop `for i in 0..n { if i != k { ... } }` of
`Matrix::inverse` (`src/matrix/mod.rs` lines 432-443): for each row
`i ≠ k`, left-multiply matrix and accumulator by the type-III elemental
matrix with factor `-A[i][k]`. -/
def invElimList (n k : ℕ) : List ℕ → Matrix → Matrix → Except String (Matrix × Matrix)
  | [], m, a => .ok (m, a)
  | i :: is, m, a =>
      if i = k then invElimList n k is m a
      else
        match Matrix.elemental_iii n i k (-(getU m i k)) with
        | .error e => .error e
        | .ok elim =>
            match Matrix.multiply elim m with
            | .error e => .error e
            | .ok m1 =>
                match Matrix.multiply elim a with
                | .error e => .error e
                | .ok a1 => invElimList n k is m1 a1

/-- The pivot-search-and-swap block at the start of each `inverse`
iteration (`src/matrix/mod.rs` lines 393-422): when the diagonal entry is
tolerance-zero, find the first tolerance-nonzero row below and swap it up
with a type-I elemental matrix (applied to matrix and accumulator);
returns the pivot value together with the two updated matrices. -/
def invSwap (n k : ℕ) (matrix accum : Matrix) : Except String (ℚ × Matrix × Matrix) :=
  let pivot := getU matrix k k
  if nearly_equal pivot 0 then
    match findPivot matrix n k with
    | none => .error "La matriz tiene una columna de ceros, por ende, no tiene inversa"
    | some i =>
        match Matrix.elemental_i n k i with
        | .error e => .error e
        | .ok perm =>
            match Matrix.multiply perm matrix with
            | .error e => .error e
            | .ok m1 =>
                match Matrix.multiply perm accum with
                | .error e => .error e
                | .ok a1 => .ok (getU matrix i k, m1, a1)
  else .ok (pivot, matrix, accum)

/-- One full iteration of the `inverse` loop body
(`src/matrix/mod.rs` lines 393-443): swap block, then scale row `k` by
`1/pivot` (type-II elemental), then clear column `k` of every other row
(type-III elementals), on the matrix and the accumulator alike. -/
def invStep (n k : ℕ) (matrix accum : Matrix) : Except String (Matrix × Matrix) :=
  match invSwap n k matrix accum with
  | .error e => .error e
  | .ok (p, m1, a1) =>
      match Matrix.elemental_ii n k (1 / p) with
      | .error e => .error e
      | .ok sc =>
          match Matrix.multiply sc m1 with
          | .error e => .error e
          | .ok m2 =>
              match Matrix.multiply sc a1 with
              | .error e => .error e
              | .ok a2 => invElimList n k (List.range n) m2 a2

/-- The main loop `for k in 0..n` of `Matrix::inverse`
(`src/matrix/mod.rs` lines 392-444), recursion over the list of remaining
loop indices. -/
def invGo (n : ℕ) : List ℕ → Matrix → Matrix → Except String Matrix
  | [], _, accum => .ok accum
  | k :: ks, matrix, accum =>
      match invStep n k matrix accum with
      | .error e => .error e
      | .ok (m3, a3) => invGo n ks m3 a3

/-- `src/matrix/mod.rs` lines 357-448: `Matrix::inverse` (Gauss-Jordan via
elemental matrices; the determinant is checked up front, with
`unwrap_or(0.0)`). -/
def Matrix.inverse (m : Matrix) : Except String Matrix :=
  if !(Matrix.is_square m) then
    .error "La inversa de matrices rectangulares no está implementada"
  else
    let det := match Matrix.determinant m with | .ok d => d | .error _ => 0
    if nearly_equal det 0 then
      .error "La matriz no tiene inversa porque su determinante es 0"
    else invGo m.rows (List.range m.rows) m (Matrix.identity m.rows)

/-- The repeated-multiplication loop of `Matrix::pow`
(`src/matrix/mod.rs` lines 243-247): `result = multiply(base, result)`,
`exp` times, starting from the identity. -/
def powLoop (base : Matrix) : ℕ → Matrix → Except String Matrix
  | 0, result => .ok result
  | e + 1, result =>
      match Matrix.multiply base result with
      | .error err => .error err
      | .ok r => powLoop base e r

/-- `src/matrix/mod.rs` lines 226-249: `Matrix::pow`.  Requires a square
base and a tolerance-integral exponent; a negative exponent inverts the
base first; `exp.abs() as usize` saturates at `usize::MAX`. -/
def Matrix.pow (m : Matrix) (exp : ℚ) : Except String Matrix :=
  if !(Matrix.is_square m) then
    .error "La potencia solo está definida para matrices cuadradas"
  else if !(nearly_equal (fract exp) 0) then
    .error "La potencia solo está definida para exponentes enteros"
  else
    match (if exp < 0 then Matrix.inverse m else .ok m) with
    | .error e => .error e
    | .ok base => powLoop base (rustCastToU64 |exp|) (Matrix.identity m.rows)

/-- `src/value.rs`: the tagged scalar/matrix value. -/
inductive Value where
  | Scalar (x : ℚ)
  | Matrix (m : Matec.Matrix)
deriving Repr, DecidableEq

namespace Fn

/-- `src/functions.rs` lines 40-52: `functions::multiply`. -/
def multiply (l r : Value) : Except String Value :=
  match l, r with
  | .Scalar a, .Scalar b => .ok (.Scalar (a * b))
  | .Matrix a, .Matrix b =>
      match Matrix.multiply a b with
      | .error e => .error e
      | .ok c => .ok (.Matrix c)
  | .Scalar a, .Matrix b => .ok (.Matrix (Matrix.scale b a))
  | .Matrix a, .Scalar b => .ok (.Matrix (Matrix.scale a b))

/-- `src/functions.rs` lines 55-68: `functions::inverse`. -/
def inverse (x : Value) : Except String Value :=
  match x with
  | .Scalar a =>
      if nearly_equal a 0 then .error "1/0 no está definido"
      else .ok (.Scalar (1 / a))
  | .Matrix m =>
      match Matrix.inverse m with
      | .error e => .error e
      | .ok b => .ok (.Matrix b)

/-- `src/functions.rs` lines 77-80: `functions::right_divide`
(the implementation inverts the LEFT operand: `multiply(inverse(left)?, right)`). -/
def right_divide (l r : Value) : Except String Value :=
  match inverse l with
  | .error e => .error e
  | .ok il => multiply il r

/-- The accumulation loop `for i in 2..=n { result *= i }` of
`functions::factorial` (`src/functions.rs` lines 125-128), on `u64` with
wrapping (release-profile) multiplication, i.e. `% 2^64` at each step. -/
def factLoop (n : ℕ) : ℕ :=
  (List.range' 2 (n - 1)).foldl (fun result i => result * i % 2 ^ 64) 1

/-- `src/functions.rs` lines 119-133: `functions::factorial`.  The scalar
is cast with `as u64` (truncating/saturating) and the resulting `u64` is
cast back with `as f64` (modelled exactly; the result is below `2^64`). -/
def factorial (x : Value) : Except String Value :=
  match x with
  | .Scalar n =>
      if n < 0 then .error "No se puede calcular el factorial de un número negativo"
      else .ok (.Scalar ((factLoop (rustCastToU64 n) : ℕ) : ℚ))
  | .Matrix _ => .error "El factorial no está definido para matrices"

/-- The coupled elimination loop `for i in (k+1)..n` of `linsolve`
(`src/functions.rs` lines 268-281): for each row `i` of the list,
`factor = A[i][k] / pivot`, row combination on `A` over the column list
`cols`, and the single augmented entry `b[i][0] -= factor * b[k][0]`. -/
def linElimGo (k : ℕ) (p : ℚ) (cols : List ℕ) : List ℕ → Matrix → Matrix → Matrix × Matrix
  | [], a, b => (a, b)
  | i :: is, a, b =>
      let factor := getU a i k / p
      let a1 := elimRowGo k i factor cols a
      let b1 := setU b i 0 (getU b i 0 - factor * getU b k 0)
      linElimGo k p cols is a1 b1

/-- The swap of the two augmented entries `b[k][0]` and `b[i][0]`
(`src/functions.rs` lines 259-261). -/
def swapB (b : Matrix) (k i : ℕ) : Matrix :=
  let tmp := getU b k 0
  setU (setU b k 0 (getU b i 0)) i 0 tmp

/-- The loop `for k in 0..n` of the square/singular branch of `linsolve`
(`src/functions.rs` lines 223-282), recursion over the list of remaining
loop indices; falling through the loop reaches the final
`Err("[+] Funcion Finalizada.")` of the function (`src/functions.rs` line
468).  When the pivot search fails on the LAST row (`k == rows-1`) the
system is classified by the exact (`==0.0`) test of the reduced augmented
entry. -/
def linSqGo (n : ℕ) : List ℕ → Matrix → Matrix → Except String Value
  | [], _, _ => .error "[+] Funcion Finalizada."
  | k :: ks, copya, copyb =>
      let pivot := getU copya k k
      if nearly_equal pivot 0 then
        match findPivot copya n k with
        | none =>
            if k = copya.rows - 1 then
              if getU copyb k 0 = 0 then .error "[+] Sistema Compatible Indeterminado"
              else .error "[+] Sistema Incompatible"
            else linSqGo n ks copya copyb
        | some i =>
            let p := getU copya i k
            let a1 := swapRowsFull copya n k i
            let b1 := swapB copyb k i
            let ab := linElimGo k p (List.range' k (n - k)) (List.range' (k + 1) (n - (k + 1))) a1 b1
            linSqGo n ks ab.1 ab.2
      else
        let ab := linElimGo k pivot (List.range' k (n - k)) (List.range' (k + 1) (n - (k + 1))) copya copyb
        linSqGo n ks ab.1 ab.2

/-- The loop `for k in 0..n` of the underdetermined (`rows < cols`) branch
of `linsolve` (`src/functions.rs` lines 290-356), recursion over the list
of remaining loop indices; it swaps only the first `rows` columns
(`for j in 0..copya.rows()`), eliminates over ALL columns
(`for j in 0..copya.cols()`), and falls through to
`Err("[+] Sistema Compatible Indeterminado")` (line 364). -/
def linUnderGo (n : ℕ) : List ℕ → Matrix → Matrix → Except String Value
  | [], _, _ => .error "[+] Sistema Compatible Indeterminado"
  | k :: ks, copya, copyb =>
      let pivot := getU copya k k
      if nearly_equal pivot 0 then
        match findPivot copya n k with
        | none =>
            if k = copya.rows - 1 then
              if getU copyb k 0 = 0 then .error "[+] Sistema Compatible Indeterminado"
              else .error "[+] Sistema Incompatible"
            else linUnderGo n ks copya copyb
        | some i =>
            let p := getU copya i k
            let a1 := swapRowsFull copya copya.rows k i
            let b1 := swapB copyb k i
            let ab := linElimGo k p (List.range copya.cols) (List.range' (k + 1) (n - (k + 1))) a1 b1
            linUnderGo n ks ab.1 ab.2
      else
        let ab := linElimGo k pivot (List.range copya.cols) (List.range' (k + 1) (n - (k + 1))) copya copyb
        linUnderGo n ks ab.1 ab.2

/-- `src/functions.rs` lines 188-478: `functions::linsolve`.  Validation:
`A.rows == b.rows`, then `b.cols == 1` (there is NO emptiness check).
Square `A`: fast path `x = inverse(A) * b` when the determinant is
tolerance-nonzero, otherwise the forward-elimination loop whose every exit
is an error.  Non-square: the underdetermined loop when `rows < cols`,
else an immediate fixed error (the code after that `return` is
unreachable). -/
def linsolve (a b : Value) : Except String Value :=
  match a with
  | .Scalar _ => .error "A debe ser una matriz"
  | .Matrix a =>
      match b with
      | .Scalar _ => .error "b debe ser una matriz."
      | .Matrix b =>
          if a.rows ≠ b.rows then .error "La cantidad de filas de A y b no coincide"
          else if b.cols ≠ 1 then .error "La matriz b debe tener una sola columna"
          else if Matrix.is_square a then
            match Matrix.determinant a with
            | .error e => .error e
            | .ok d =>
                if !(nearly_equal d 0) then
                  match Matrix.inverse a with
                  | .error e => .error e
                  | .ok ai =>
                      match Matrix.multiply ai b with
                      | .error e => .error e
                      | .ok x => .ok (.Matrix x)
                else linSqGo a.rows (List.range a.rows) a b
          else if a.rows < a.cols then linUnderGo a.rows (List.range a.rows) a b
          else .error "[!] Sistema Subdeterminado, esta funcion no resuelve bien los sistemas subdeterminados"

end Fn

/-- The row of maximal absolute value in column `k`, scanning rows `k`
downward (first maximum wins).  Part of the partial-pivoting determinant
described by the spec. -/
def maxAbsGo (m : Matrix) (k : ℕ) : List ℕ → ℕ → ℕ
  | [], best => best
  | i :: is, best => maxAbsGo m k is (if |getU m i k| > |getU m best k| then i else best)

/-- The per-step loop of the determinant with partial pivoting as the spec
describes it (spec §4.1 `determinant`): select the max-|·| row of column
`k` among rows `k..n`, return exactly `0.0` if the best available pivot is
tolerance-zero, otherwise swap it up (flipping the sign), eliminate below,
and multiply the pivot into the running determinant. -/
def detPPGo (n : ℕ) : List ℕ → Matrix → ℚ → ℚ
  | [], _, det => det
  | k :: ks, mtx, det =>
      let r := maxAbsGo mtx k (List.range' (k + 1) (n - (k + 1))) k
      let p := getU mtx r k
      if nearly_equal p 0 then 0
      else
        let md := if r = k then (mtx, det) else (swapRowsFull mtx n k r, -det)
        let m2 := elimBelow md.1 n k p
        detPPGo n ks m2 (md.2 * p)

/-- Determinant by Gaussian elimination with partial (max-absolute-value)
pivoting, following the spec's words; stated only to compare against the
implementation's strategy (the implementation scans for the FIRST
tolerance-nonzero row, and only when the diagonal entry is
tolerance-zero). -/
def detPartialPivotSpec (m : Matrix) : Except String ℚ :=
  if !(Matrix.is_square m) then
    .error "El determinante solo está definida para matrices cuadradas."
  else .ok (detPPGo m.rows (List.range m.rows) m 1)

/-! ### Preservation of the representation invariant -/

theorem setU_rows (m : Matrix) (r c : ℕ) (v : ℚ) : (setU m r c v).rows = m.rows := rfl

theorem setU_cols (m : Matrix) (r c : ℕ) (v : ℚ) : (setU m r c v).cols = m.cols := rfl

theorem setU_wf {m : Matrix} (h : m.wf) (r c : ℕ) (v : ℚ) : (setU m r c v).wf := by
  simpa [Matrix.wf, setU] using h

theorem new_wf (r c : ℕ) : (Matrix.new r c).wf := by
  simp [Matrix.wf, Matrix.new]

theorem from_scalar_wf (s : ℚ) : (Matrix.from_scalar s).wf := by
  simp [Matrix.wf, Matrix.from_scalar]

theorem identity_wf (n : ℕ) : (Matrix.identity n).wf := by
  simp [Matrix.wf, Matrix.identity]

theorem from_2d_wf {l : List (List ℚ)} {m : Matrix} (h : Matrix.from_2d l = .ok m) : m.wf := by
  unfold Matrix.from_2d at h
  split at h
  · cases h
    simp [Matrix.wf]
  · dsimp only at h
    split at h
    · cases h
      rename_i hne hall
      simp only [Matrix.wf, List.length_flatten]
      rw [List.sum_eq_card_nsmul _ (l.headD []).length]
      · simp [mul_comm]
      · intro x hx
        simp only [List.mem_map] at hx
        obtain ⟨row, hrow, rfl⟩ := hx
        exact of_decide_eq_true (List.all_eq_true.mp hall row hrow)
    · cases h

theorem set_ok_rows {m m' : Matrix} {r c : ℕ} {v : ℚ} (h : Matrix.set m r c v = .ok m') :
    m'.rows = m.rows := by
  unfold Matrix.set at h
  split at h
  · cases h
  · cases h; rfl

theorem set_ok_cols {m m' : Matrix} {r c : ℕ} {v : ℚ} (h : Matrix.set m r c v = .ok m') :
    m'.cols = m.cols := by
  unfold Matrix.set at h
  split at h
  · cases h
  · cases h; rfl

theorem set_ok_wf {m m' : Matrix} {r c : ℕ} {v : ℚ} (hm : m.wf)
    (h : Matrix.set m r c v = .ok m') : m'.wf := by
  unfold Matrix.set at h
  split at h
  · cases h
  · cases h; exact setU_wf hm r c v

theorem elemental_i_wf {n i j : ℕ} {m : Matrix} (h : Matrix.elemental_i n i j = .ok m) :
    m.wf := by
  unfold Matrix.elemental_i at h
  simp only [bind, Except.bind] at h
  repeat' split at h
  all_goals first
    | cases h
    | exact set_ok_wf (set_ok_wf (set_ok_wf (set_ok_wf (identity_wf n) (by assumption))
        (by assumption)) (by assumption)) h

theorem elemental_ii_wf {n i : ℕ} {s : ℚ} {m : Matrix} (h : Matrix.elemental_ii n i s = .ok m) :
    m.wf := set_ok_wf (identity_wf n) h

theorem elemental_iii_wf {n i j : ℕ} {s : ℚ} {m : Matrix}
    (h : Matrix.elemental_iii n i j s = .ok m) : m.wf := set_ok_wf (identity_wf n) h

theorem add_ok_wf {l r m : Matrix} (h : Matrix.add l r = .ok m) : m.wf := by
  unfold Matrix.add at h
  split at h
  · cases h
  · cases h; simp [Matrix.wf, Matrix.addData]

theorem mulU_rows (l r : Matrix) : (Matrix.mulU l r).rows = l.rows := rfl

theorem mulU_cols (l r : Matrix) : (Matrix.mulU l r).cols = r.cols := rfl

theorem mulU_wf (l r : Matrix) : (Matrix.mulU l r).wf := by
  simp [Matrix.wf, Matrix.mulU]

theorem multiply_ok_eq {l r m : Matrix} (h : Matrix.multiply l r = .ok m) :
    m = Matrix.mulU l r := by
  unfold Matrix.multiply at h
  split at h
  · cases h
  · cases h; rfl

theorem multiply_ok_wf {l r m : Matrix} (h : Matrix.multiply l r = .ok m) : m.wf := by
  rw [multiply_ok_eq h]; exact mulU_wf l r

theorem scale_wf (m : Matrix) (k : ℚ) : (Matrix.scale m k).wf := by
  simp [Matrix.wf, Matrix.scale]

theorem transpose_wf (m : Matrix) : (Matrix.transpose m).wf := by
  simp [Matrix.wf, Matrix.transpose]

theorem powLoop_ok_wf {base : Matrix} : ∀ {e : ℕ} {res m : Matrix}, res.wf →
    powLoop base e res = .ok m → m.wf
  | 0, _, _, hres, h => by cases h; exact hres
  | e + 1, res, m, hres, h => by
      unfold powLoop at h
      split at h
      · cases h
      · exact powLoop_ok_wf (multiply_ok_wf (by assumption)) h

theorem pow_ok_wf {a : Matrix} {e : ℚ} {m : Matrix} (h : Matrix.pow a e = .ok m) : m.wf := by
  unfold Matrix.pow at h
  split at h
  · cases h
  · split at h
    · cases h
    · split at h
      · cases h
      · exact powLoop_ok_wf (identity_wf a.rows) h

theorem invElimList_ok_wf {n k : ℕ} : ∀ {is : List ℕ} {m a m' a' : Matrix}, a.wf →
    invElimList n k is m a = .ok (m', a') → a'.wf
  | [], _, _, _, _, ha, h => by cases h; exact ha
  | i :: is, m, a, m', a', ha, h => by
      unfold invElimList at h
      split at h
      · exact invElimList_ok_wf ha h
      · repeat' split at h
        all_goals try cases h
        exact invElimList_ok_wf (multiply_ok_wf (by assumption)) h

theorem invStep_ok_wf {n k : ℕ} {m a m' a' : Matrix} (h : invStep n k m a = .ok (m', a')) :
    a'.wf := by
  unfold invStep at h
  repeat' split at h
  all_goals try cases h
  exact invElimList_ok_wf (multiply_ok_wf (by assumption)) h

theorem invGo_ok_wf {n : ℕ} : ∀ {ks : List ℕ} {m a b : Matrix}, a.wf →
    invGo n ks m a = .ok b → b.wf
  | [], _, a, b, ha, h => by cases h; exact ha
  | k :: ks, m, a, b, ha, h => by
      unfold invGo at h
      split at h
      · cases h
      · exact invGo_ok_wf (invStep_ok_wf (by assumption)) h

theorem inverse_ok_wf {a b : Matrix} (h : Matrix.inverse a = .ok b) : b.wf := by
  unfold Matrix.inverse at h
  split at h
  · cases h
  · dsimp only at h
    split at h
    · cases h
    · exact invGo_ok_wf (identity_wf a.rows) h

theorem swapGo_wf {k i : ℕ} : ∀ {js : List ℕ} {m : Matrix}, m.wf → (swapGo k i js m).wf
  | [], _, h => h
  | _ :: js, _, h => @swapGo_wf k i js _ (setU_wf (setU_wf h _ _ _) _ _ _)

theorem elimRowGo_wf {k i : ℕ} {f : ℚ} : ∀ {js : List ℕ} {m : Matrix}, m.wf →
    (elimRowGo k i f js m).wf
  | [], _, h => h
  | _ :: js, _, h => @elimRowGo_wf k i f js _ (setU_wf h _ _ _)

theorem elimBelowGo_wf {n k : ℕ} {p : ℚ} : ∀ {is : List ℕ} {m : Matrix}, m.wf →
    (elimBelowGo n k p is m).wf
  | [], _, h => h
  | _ :: is, _, h => @elimBelowGo_wf n k p is _ (elimRowGo_wf h)

/-! ### C8: the representation invariant `data.len() == rows*cols` -/

/-- C8.  Every matrix produced by the engine's operations satisfies the
invariant `data.len() == rows * cols` (`Matrix.wf`): the constructors
`new`, `from_scalar`, `from_2d`, `identity` and the elemental
constructors; the results of `add`, `multiply`, `scale`, `transpose`,
`pow` and `inverse`; `set` preserves the invariant, as do the primitive
row operations (`setU`, column-wise row swap, row combination) out of
which the matrices handled inside `determinant` and `linsolve` are
built. -/
theorem c8_matrix_invariant :
    (∀ r c, (Matrix.new r c).wf) ∧
    (∀ s, (Matrix.from_scalar s).wf) ∧
    (∀ l m, Matrix.from_2d l = .ok m → m.wf) ∧
    (∀ n, (Matrix.identity n).wf) ∧
    (∀ n i j m, Matrix.elemental_i n i j = .ok m → m.wf) ∧
    (∀ n i s m, Matrix.elemental_ii n i s = .ok m → m.wf) ∧
    (∀ n i j s m, Matrix.elemental_iii n i j s = .ok m → m.wf) ∧
    (∀ a b c, Matrix.add a b = .ok c → c.wf) ∧
    (∀ a b c, Matrix.multiply a b = .ok c → c.wf) ∧
    (∀ a k, (Matrix.scale a k).wf) ∧
    (∀ a, (Matrix.transpose a).wf) ∧
    (∀ a e b, Matrix.pow a e = .ok b → b.wf) ∧
    (∀ a b, Matrix.inverse a = .ok b → b.wf) ∧
    (∀ m r c v m', m.wf → Matrix.set m r c v = .ok m' → m'.wf) ∧
    (∀ m r c v, m.wf → (setU m r c v).wf) ∧
    (∀ m bound k i, m.wf → (swapRowsFull m bound k i).wf) ∧
    (∀ m n k p, m.wf → (elimBelow m n k p).wf) :=
  ⟨new_wf, from_scalar_wf, fun _ _ => from_2d_wf, identity_wf,
   fun _ _ _ _ => elemental_i_wf, fun _ _ _ _ => elemental_ii_wf,
   fun _ _ _ _ _ => elemental_iii_wf, fun _ _ _ => add_ok_wf,
   fun _ _ _ => multiply_ok_wf, scale_wf, transpose_wf,
   fun _ _ _ => pow_ok_wf, fun _ _ => inverse_ok_wf,
   fun _ _ _ _ _ hm h => set_ok_wf hm h, fun _ r c v hm => setU_wf hm r c v,
   fun _ _ _ _ hm => swapGo_wf hm, fun _ _ _ _ hm => elimBelowGo_wf hm⟩

/-- Witness for C8 at concrete inputs, every hypothesis discharged by
evaluation. -/
theorem c8_matrix_invariant_witness :
    (Matrix.new 2 3).wf ∧ (Matrix.from_scalar 5).wf ∧
    (Matrix.mk 2 2 [1, 2, 3, 4]).wf ∧ (Matrix.identity 3).wf ∧
    (Matrix.mk 1 1 [8]).wf ∧ (Matrix.mk 2 2 [1, -1, -1, 2]).wf ∧
    (setU (Matrix.mk 2 2 [1, 2, 3, 4]) 0 1 7).wf :=
  ⟨c8_matrix_invariant.1 2 3,
   c8_matrix_invariant.2.1 5,
   c8_matrix_invariant.2.2.1 [[1, 2], [3, 4]] (Matrix.mk 2 2 [1, 2, 3, 4])
     (by with_unfolding_all decide),
   c8_matrix_invariant.2.2.2.1 3,
   c8_matrix_invariant.2.2.2.2.2.2.2.2.2.2.2.1 (Matrix.mk 1 1 [2]) 3 (Matrix.mk 1 1 [8])
     (by with_unfolding_all decide),
   c8_matrix_invariant.2.2.2.2.2.2.2.2.2.2.2.2.1 (Matrix.mk 2 2 [2, 1, 1, 1])
     (Matrix.mk 2 2 [1, -1, -1, 2]) (by with_unfolding_all decide),
   c8_matrix_invariant.2.2.2.2.2.2.2.2.2.2.2.2.2.2.1 (Matrix.mk 2 2 [1, 2, 3, 4]) 0 1 7
     (by decide)⟩

/-! ### C2: linsolve input validation -/

/-- C2, counterexample.  The claim says `linsolve` first checks that `A`
is non-empty (`cols > 0`) and rejects every violating input with an
`InvalidSystem` error.  In fact there is no such check: the empty `0×0`
coefficient matrix with an (empty) `0×1` right-hand side passes both
implemented checks (`A.rows == b.rows`, `b.cols == 1`), reaches the
square fast path (the determinant of the `0×0` matrix is `1.0`), and
`linsolve` SUCCEEDS, returning an empty `0×1` solution. -/
theorem c2_empty_A_not_rejected :
    (Matrix.mk 0 0 []).cols = 0 ∧
    Fn.linsolve (.Matrix (Matrix.mk 0 0 [])) (.Matrix (Matrix.mk 0 1 [])) =
      .ok (.Matrix (Matrix.mk 0 1 [])) :=
  ⟨rfl, by with_unfolding_all decide⟩

/-- C2, amended.  `linsolve` validates its two `Matrix` operands in this
order: first `A.rows == b.rows`, then `b.cols == 1`, each violation
failing with its descriptive error; there is no non-emptiness check on
`A` (an empty `A` with matching `b` passes validation). -/
theorem c2_validation_order (A b : Matrix) :
    (A.rows ≠ b.rows →
      Fn.linsolve (.Matrix A) (.Matrix b) =
        .error "La cantidad de filas de A y b no coincide") ∧
    (A.rows = b.rows → b.cols ≠ 1 →
      Fn.linsolve (.Matrix A) (.Matrix b) =
        .error "La matriz b debe tener una sola columna") := by
  constructor
  · intro h
    simp [Fn.linsolve, h]
  · intro h1 h2
    simp [Fn.linsolve, h1, h2]

/-- Witness for C2: both validation errors observed on concrete inputs. -/
theorem c2_validation_order_witness :
    Fn.linsolve (.Matrix (Matrix.mk 1 1 [1])) (.Matrix (Matrix.mk 2 1 [1, 2])) =
      .error "La cantidad de filas de A y b no coincide" ∧
    Fn.linsolve (.Matrix (Matrix.mk 2 2 [1, 0, 0, 1])) (.Matrix (Matrix.mk 2 2 [1, 0, 0, 1])) =
      .error "La matriz b debe tener una sola columna" :=
  ⟨(c2_validation_order (Matrix.mk 1 1 [1]) (Matrix.mk 2 1 [1, 2])).1 (by decide),
   (c2_validation_order (Matrix.mk 2 2 [1, 0, 0, 1]) (Matrix.mk 2 2 [1, 0, 0, 1])).2
     (by decide) (by decide)⟩

/-! ### C5: the sample values of the tolerance comparator -/

/-- C5, counterexample.  The claim (with the spec) asserts
`nearly_equal(1e-13, 0.0)` and `nearly_equal(1.0, 1.0000000001)` are both
true.  Under the code's own policy both are FALSE: `|1e-13 - 0|` is
astronomically larger than `EPSILON * MIN_POSITIVE ≈ 2.2e-320`, and the
relative error `1e-10 / 2.0000000001 ≈ 5e-11` exceeds `EPSILON = 1e-12`. -/
theorem c5_sample_values_false :
    nearly_equal (1 / 10 ^ 13) 0 = false ∧
    nearly_equal 1 (10000000001 / 10 ^ 10) = false := by
  constructor <;> with_unfolding_all decide

/-- C5, amended.  Under the stated policy the comparator returns `false`
on all three sample pairs: `nearly_equal(1e-13, 0.0) = false` (the
absolute difference is compared against `EPSILON * MIN_POSITIVE`, about
`2.2e-320`), `nearly_equal(1.0, 1.0000000001) = false` (relative error
`≈ 5e-11 > 1e-12`), and `nearly_equal(1.0, 1.01) = false`. -/
theorem c5_sample_values :
    nearly_equal (1 / 10 ^ 13) 0 = false ∧
    nearly_equal 1 (10000000001 / 10 ^ 10) = false ∧
    nearly_equal 1 (101 / 100) = false := by
  refine ⟨?_, ?_, ?_⟩ <;> with_unfolding_all decide

/-! ### C7: right_divide -/

/-- C7.  For every pair of values, `right_divide(a, b)` returns exactly
the result of `multiply(inverse(a), b)` — the LEFT operand is inverted
(and a failure of `inverse(a)` is propagated), for all four
scalar/matrix operand combinations; this matches the implementation and
settles the doc-comment ambiguity in favour of `inverse(left)`. -/
theorem c7_right_divide_is_multiply_inverse (a b : Value) :
    Fn.right_divide a b =
      match Fn.inverse a with
      | .error e => .error e
      | .ok ia => Fn.multiply ia b := rfl

/-! ### C9: overdetermined systems are rejected unconditionally -/

/-- C9.  For every coefficient matrix with strictly more rows than
columns and every matching single-column right-hand side, `linsolve`
unconditionally returns the fixed error saying it does not solve such
systems (the code after that `return` is unreachable), and never returns
a solution matrix. -/
theorem c9_overdetermined_always_error (A b : Matrix) (h1 : A.cols < A.rows)
    (h2 : A.rows = b.rows) (h3 : b.cols = 1) :
    Fn.linsolve (.Matrix A) (.Matrix b) =
      .error "[!] Sistema Subdeterminado, esta funcion no resuelve bien los sistemas subdeterminados" := by
  have hsq : Matrix.is_square A = false := by
    simp [Matrix.is_square]
    omega
  simp [Fn.linsolve, h2, h3, hsq]
  omega

/-- Witness for C9: a `2×1` system with a unique solution is still
rejected. -/
theorem c9_overdetermined_witness :
    Fn.linsolve (.Matrix (Matrix.mk 2 1 [1, 2])) (.Matrix (Matrix.mk 2 1 [3, 6])) =
      .error "[!] Sistema Subdeterminado, esta funcion no resuelve bien los sistemas subdeterminados" :=
  c9_overdetermined_always_error (Matrix.mk 2 1 [1, 2]) (Matrix.mk 2 1 [3, 6])
    (by decide) (by decide) (by decide)

/-! ### C1: classification of singular square systems -/

/-- Every exit of the square/singular elimination loop of `linsolve` is an
error, and the message is one of the three the code can produce. -/
theorem linSqGo_error (n : ℕ) : ∀ (ks : List ℕ) (a b : Matrix), ∃ s,
    Fn.linSqGo n ks a b = .error s ∧
    (s = "[+] Sistema Compatible Indeterminado" ∨ s = "[+] Sistema Incompatible" ∨
      s = "[+] Funcion Finalizada.")
  | [], _, _ => ⟨_, rfl, Or.inr (Or.inr rfl)⟩
  | k :: ks, a, b => by
      unfold Fn.linSqGo
      dsimp only
      split
      · split
        · split
          · split
            · exact ⟨_, rfl, Or.inl rfl⟩
            · exact ⟨_, rfl, Or.inr (Or.inl rfl)⟩
          · exact linSqGo_error n ks a b
        · exact linSqGo_error n ks _ _
      · exact linSqGo_error n ks _ _

/-- C1, counterexample.  For `A = [[0,0],[0,1]]`, `b = [[5],[0]]` every
premise of the claim holds (square `A`, tolerance-zero determinant,
matching dimensions) and after reduction (which leaves `A` unchanged) row
`0` is fully tolerance-zero with tolerance-nonzero augmented entry `5`,
so the claim demands the Incompatible error; the code instead returns the
fall-through error `"[+] Funcion Finalizada."`, because it only ever
classifies when the pivot search fails at the LAST diagonal position. -/
theorem c1_classification_counterexample :
    Matrix.is_square (Matrix.mk 2 2 [0, 0, 0, 1]) = true ∧
    Matrix.determinant (Matrix.mk 2 2 [0, 0, 0, 1]) = .ok 0 ∧
    nearly_equal 0 0 = true ∧
    nearly_equal (getU (Matrix.mk 2 2 [0, 0, 0, 1]) 0 0) 0 = true ∧
    nearly_equal (getU (Matrix.mk 2 2 [0, 0, 0, 1]) 0 1) 0 = true ∧
    nearly_equal (getU (Matrix.mk 2 1 [5, 0]) 0 0) 0 = false ∧
    Fn.linsolve (.Matrix (Matrix.mk 2 2 [0, 0, 0, 1])) (.Matrix (Matrix.mk 2 1 [5, 0])) =
      .error "[+] Funcion Finalizada." ∧
    "[+] Funcion Finalizada." ≠ "[+] Sistema Incompatible" ∧
    "[+] Funcion Finalizada." ≠ "[+] Sistema Compatible Indeterminado" := by
  refine ⟨rfl, by with_unfolding_all decide, rfl, by with_unfolding_all decide,
    by with_unfolding_all decide, by with_unfolding_all decide,
    by with_unfolding_all decide, by decide, by decide⟩

/-- C1, amended.  For every square `A` with tolerance-zero determinant and
every `b` with matching rows and a single column, `linsolve` returns an
error, and that error is one of `"[+] Sistema Compatible Indeterminado"`,
`"[+] Sistema Incompatible"`, or the fall-through
`"[+] Funcion Finalizada."`; the Incompatible/Indeterminate dichotomy of
the original claim only applies when the pivot search fails at the last
diagonal position (where the reduced augmented entry is tested with a raw
`== 0.0`), and otherwise the generic completion error is returned. -/
theorem c1_singular_always_error (A b : Matrix) (d : ℚ)
    (hsq : Matrix.is_square A = true) (hdet : Matrix.determinant A = .ok d)
    (hd : nearly_equal d 0 = true) (hrows : A.rows = b.rows) (hcols : b.cols = 1) :
    ∃ s, Fn.linsolve (.Matrix A) (.Matrix b) = .error s ∧
      (s = "[+] Sistema Compatible Indeterminado" ∨ s = "[+] Sistema Incompatible" ∨
        s = "[+] Funcion Finalizada.") := by
  have hloop := linSqGo_error A.rows (List.range A.rows) A b
  unfold Fn.linsolve
  dsimp only
  rw [if_neg (fun hc => hc hrows), if_neg (fun hc => hc hcols), if_pos hsq, hdet]
  dsimp only
  rw [hd]
  simp only [Bool.not_true]
  rw [if_neg (by simp)]
  exact hloop

/-- Witness for C1 (amended): the spec's own Incompatible example. -/
theorem c1_singular_always_error_witness :
    ∃ s, Fn.linsolve (.Matrix (Matrix.mk 2 2 [1, 1, 2, 2])) (.Matrix (Matrix.mk 2 1 [2, 5])) =
      .error s ∧
      (s = "[+] Sistema Compatible Indeterminado" ∨ s = "[+] Sistema Incompatible" ∨
        s = "[+] Funcion Finalizada.") :=
  c1_singular_always_error (Matrix.mk 2 2 [1, 1, 2, 2]) (Matrix.mk 2 1 [2, 5]) 0
    (by decide) (by with_unfolding_all decide) (by decide) (by decide) (by decide)

/-- The tolerance threshold `EPSILON * MIN_POSITIVE` of the zero branch of
`nearly_equal` is positive. -/
theorem tau_pos : 0 < EPSILON * MIN_POSITIVE := by
  rw [EPSILON_MIN_POSITIVE_values.1, EPSILON_MIN_POSITIVE_values.2]
  positivity

/-- Characterization of `nearly_equal x 0`: comparison with zero reduces
to the absolute threshold test. -/
theorem nearly_equal_zero_true {x : ℚ} (h : |x| < EPSILON * MIN_POSITIVE) :
    nearly_equal x 0 = true := by
  unfold nearly_equal
  dsimp only
  split
  · rfl
  · rw [if_pos (Or.inr (Or.inl rfl))]
    simpa [sub_zero] using h

/-- Characterization of `nearly_equal x 0`, negative direction. -/
theorem nearly_equal_zero_false {x : ℚ} (h : ¬ |x| < EPSILON * MIN_POSITIVE) :
    nearly_equal x 0 = false := by
  unfold nearly_equal
  dsimp only
  rw [if_neg, if_pos (Or.inr (Or.inl rfl))]
  · simpa [sub_zero] using h
  · rintro rfl
    exact h (by simpa using tau_pos)

/-! ### C4: the pivoting strategy of `determinant` -/

/-- C4.  The claim (with the spec) says `determinant` uses partial
pivoting: at EVERY step the row of maximum absolute value in the column
is swapped into pivot position.  The code instead uses the diagonal entry
whenever it is tolerance-nonzero and otherwise takes the FIRST
tolerance-nonzero row below.  On the failing input
`A = t * [[1, 0], [10, 2]]` with `t = EPSILON * MIN_POSITIVE` the two
strategies observably diverge: the implementation returns `2t² ≠ 0`,
while the partial-pivoting algorithm the claim describes swaps the
max-|·| row `10t` up and then meets a tolerance-zero second pivot
(`|-t/5| < t`), returning exactly `0.0`. -/
theorem c4_determinant_not_partial_pivot :
    Matrix.determinant (Matrix.mk 2 2
        [EPSILON * MIN_POSITIVE, 0, 10 * (EPSILON * MIN_POSITIVE), 2 * (EPSILON * MIN_POSITIVE)]) =
      .ok (2 * (EPSILON * MIN_POSITIVE) ^ 2) ∧
    detPartialPivotSpec (Matrix.mk 2 2
        [EPSILON * MIN_POSITIVE, 0, 10 * (EPSILON * MIN_POSITIVE), 2 * (EPSILON * MIN_POSITIVE)]) =
      .ok 0 ∧
    2 * (EPSILON * MIN_POSITIVE) ^ 2 ≠ 0 := by
  have ht : (0:ℚ) < EPSILON * MIN_POSITIVE := tau_pos
  have hne : (EPSILON * MIN_POSITIVE : ℚ) ≠ 0 := ne_of_gt ht
  have h1 : nearly_equal (EPSILON * MIN_POSITIVE) 0 = false :=
    nearly_equal_zero_false (by rw [abs_of_pos ht]; exact lt_irrefl _)
  have h2 : nearly_equal (2 * (EPSILON * MIN_POSITIVE)) 0 = false :=
    nearly_equal_zero_false (by rw [abs_of_pos (by linarith)]; linarith)
  have h10 : nearly_equal (10 * (EPSILON * MIN_POSITIVE)) 0 = false :=
    nearly_equal_zero_false (by rw [abs_of_pos (by linarith)]; linarith)
  have h5 : nearly_equal (-(EPSILON * MIN_POSITIVE / 5)) 0 = true :=
    nearly_equal_zero_true (by rw [abs_neg, abs_of_pos (by linarith)]; linarith)
  refine ⟨?_, ?_, by positivity⟩
  · unfold Matrix.determinant
    rw [if_neg (by decide), show List.range 2 = [0, 1] from rfl]
    unfold detGo
    dsimp only
    rw [show getU (Matrix.mk 2 2
          [EPSILON * MIN_POSITIVE, 0, 10 * (EPSILON * MIN_POSITIVE), 2 * (EPSILON * MIN_POSITIVE)]) 0 0
        = EPSILON * MIN_POSITIVE from rfl, h1]
    rw [if_neg (by decide)]
    unfold detGo
    dsimp only
    rw [show getU (elimBelow (Matrix.mk 2 2
          [EPSILON * MIN_POSITIVE, 0, 10 * (EPSILON * MIN_POSITIVE), 2 * (EPSILON * MIN_POSITIVE)]) 2 0
          (EPSILON * MIN_POSITIVE)) 1 1
        = 2 * (EPSILON * MIN_POSITIVE) -
            10 * (EPSILON * MIN_POSITIVE) / (EPSILON * MIN_POSITIVE) * 0 from rfl]
    rw [show (2 * (EPSILON * MIN_POSITIVE) -
          10 * (EPSILON * MIN_POSITIVE) / (EPSILON * MIN_POSITIVE) * 0 : ℚ)
        = 2 * (EPSILON * MIN_POSITIVE) by ring, h2]
    rw [if_neg (by decide)]
    unfold detGo
    rw [show getU (elimBelow (Matrix.mk 2 2
          [EPSILON * MIN_POSITIVE, 0, 10 * (EPSILON * MIN_POSITIVE), 2 * (EPSILON * MIN_POSITIVE)]) 2 0
          (EPSILON * MIN_POSITIVE)) 0 0
        = EPSILON * MIN_POSITIVE from rfl]
    rw [show getU (elimBelow (elimBelow (Matrix.mk 2 2
          [EPSILON * MIN_POSITIVE, 0, 10 * (EPSILON * MIN_POSITIVE), 2 * (EPSILON * MIN_POSITIVE)]) 2 0
          (EPSILON * MIN_POSITIVE)) 2 1 (2 * (EPSILON * MIN_POSITIVE))) 1 1
        = 2 * (EPSILON * MIN_POSITIVE) -
            10 * (EPSILON * MIN_POSITIVE) / (EPSILON * MIN_POSITIVE) * 0 from rfl]
    simp only [Except.ok.injEq]
    ring
  · have hcond : |getU (Matrix.mk 2 2
          [EPSILON * MIN_POSITIVE, 0, 10 * (EPSILON * MIN_POSITIVE), 2 * (EPSILON * MIN_POSITIVE)]) 1 0|
        > |getU (Matrix.mk 2 2
          [EPSILON * MIN_POSITIVE, 0, 10 * (EPSILON * MIN_POSITIVE), 2 * (EPSILON * MIN_POSITIVE)]) 0 0| := by
      rw [show getU (Matrix.mk 2 2
          [EPSILON * MIN_POSITIVE, 0, 10 * (EPSILON * MIN_POSITIVE), 2 * (EPSILON * MIN_POSITIVE)]) 1 0
        = 10 * (EPSILON * MIN_POSITIVE) from rfl,
        show getU (Matrix.mk 2 2
          [EPSILON * MIN_POSITIVE, 0, 10 * (EPSILON * MIN_POSITIVE), 2 * (EPSILON * MIN_POSITIVE)]) 0 0
        = EPSILON * MIN_POSITIVE from rfl,
        abs_of_pos ht, abs_of_pos (by linarith : (0:ℚ) < 10 * (EPSILON * MIN_POSITIVE))]
      linarith
    unfold detPartialPivotSpec
    rw [if_neg (by decide), show List.range 2 = [0, 1] from rfl]
    unfold detPPGo
    dsimp only
    rw [show List.range' (0 + 1) (2 - (0 + 1)) = [1] from rfl]
    rw [show maxAbsGo (Matrix.mk 2 2
          [EPSILON * MIN_POSITIVE, 0, 10 * (EPSILON * MIN_POSITIVE), 2 * (EPSILON * MIN_POSITIVE)])
          0 [1] 0
        = if |getU (Matrix.mk 2 2
              [EPSILON * MIN_POSITIVE, 0, 10 * (EPSILON * MIN_POSITIVE), 2 * (EPSILON * MIN_POSITIVE)]) 1 0|
              > |getU (Matrix.mk 2 2
              [EPSILON * MIN_POSITIVE, 0, 10 * (EPSILON * MIN_POSITIVE), 2 * (EPSILON * MIN_POSITIVE)]) 0 0|
            then 1 else 0 from rfl]
    rw [if_pos hcond]
    rw [show getU (Matrix.mk 2 2
          [EPSILON * MIN_POSITIVE, 0, 10 * (EPSILON * MIN_POSITIVE), 2 * (EPSILON * MIN_POSITIVE)]) 1 0
        = 10 * (EPSILON * MIN_POSITIVE) from rfl]
    rw [h10]
    rw [if_neg (by decide)]
    rw [if_neg (by decide)]
    unfold detPPGo
    dsimp only
    rw [show List.range' (1 + 1) (2 - (1 + 1)) = ([] : List ℕ) from rfl]
    rw [show getU (elimBelow (swapRowsFull (Matrix.mk 2 2
          [EPSILON * MIN_POSITIVE, 0, 10 * (EPSILON * MIN_POSITIVE), 2 * (EPSILON * MIN_POSITIVE)])
          2 0 1, (-1 : ℚ)).1 2 0 (10 * (EPSILON * MIN_POSITIVE)))
          (maxAbsGo (elimBelow (swapRowsFull (Matrix.mk 2 2
          [EPSILON * MIN_POSITIVE, 0, 10 * (EPSILON * MIN_POSITIVE), 2 * (EPSILON * MIN_POSITIVE)])
          2 0 1, (-1 : ℚ)).1 2 0 (10 * (EPSILON * MIN_POSITIVE))) 1 [] 1) 1
        = 0 - EPSILON * MIN_POSITIVE / (10 * (EPSILON * MIN_POSITIVE)) * (2 * (EPSILON * MIN_POSITIVE))
        from rfl]
    rw [show (0 - EPSILON * MIN_POSITIVE / (10 * (EPSILON * MIN_POSITIVE)) * (2 * (EPSILON * MIN_POSITIVE)) : ℚ)
        = -(EPSILON * MIN_POSITIVE / 5) by field_simp; ring]
    rw [h5]
    rw [if_pos rfl]

/-! ### Entry-level lemmas for the matrix product -/

theorem linear_idx_lt {i j R C : ℕ} (hi : i < R) (hj : j < C) : i * C + j < R * C :=
  calc i * C + j < i * C + C := by omega
  _ = (i + 1) * C := by ring
  _ ≤ R * C := Nat.mul_le_mul_right C hi

theorem linear_idx_div {i j C : ℕ} (hj : j < C) : (i * C + j) / C = i := by
  rw [mul_comm, Nat.mul_add_div (by omega), Nat.div_eq_of_lt hj]
  omega

theorem linear_idx_mod {i j C : ℕ} (hj : j < C) : (i * C + j) % C = j := by
  rw [mul_comm, Nat.mul_add_mod, Nat.mod_eq_of_lt hj]

theorem getU_identity {n i j : ℕ} (hi : i < n) (hj : j < n) :
    getU (Matrix.identity n) i j = if i = j then 1 else 0 := by
  unfold getU Matrix.identity
  dsimp only
  rw [List.getD_eq_getElem?_getD, List.getElem?_map,
    List.getElem?_range (linear_idx_lt hi hj)]
  simp only [Option.map_some', Option.getD_some]
  rw [linear_idx_div hj, linear_idx_mod hj]

theorem foldl_add_range (f : ℕ → ℚ) : ∀ c : ℕ,
    (List.range c).foldl (fun s x => s + f x) 0 = ∑ x ∈ Finset.range c, f x
  | 0 => rfl
  | c + 1 => by
      rw [List.range_succ, List.foldl_append, foldl_add_range f c, Finset.sum_range_succ]
      rfl

theorem dotU_eq_sum (l r : Matrix) (m p : ℕ) :
    Matrix.dotU l r m p = ∑ x ∈ Finset.range l.cols, getU l m x * getU r x p :=
  foldl_add_range _ l.cols

theorem getU_mulU {l r : Matrix} {i j : ℕ} (hi : i < l.rows) (hj : j < r.cols) :
    getU (Matrix.mulU l r) i j = Matrix.dotU l r i j := by
  unfold getU Matrix.mulU
  dsimp only
  rw [List.getD_eq_getElem?_getD, List.getElem?_map,
    List.getElem?_range (linear_idx_lt hi hj)]
  simp only [Option.map_some', Option.getD_some]
  rw [linear_idx_div hj, linear_idx_mod hj]

theorem getU_eq_getElem {m : Matrix} {i j : ℕ} (hm : m.wf) (hi : i < m.rows)
    (hj : j < m.cols) (h : i * m.cols + j < m.data.length) :
    getU m i j = m.data.get ⟨i * m.cols + j, h⟩ := by
  unfold getU
  rw [List.getD_eq_getElem?_getD, List.getElem?_eq_getElem h]
  rfl

/-- `B * identity = B` (exactly, in the rational model). -/
theorem mulU_identity_right {B : Matrix} (hwf : B.wf) :
    Matrix.mulU B (Matrix.identity B.cols) = B := by
  obtain ⟨R, C, data⟩ := B
  have hwf' : data.length = R * C := hwf
  unfold Matrix.mulU Matrix.identity
  dsimp only
  congr 1
  apply List.ext_getElem
  · simp [hwf']
  · intro idx h1 h2
    have hidx : idx < R * C := by simpa using h1
    have hC : 0 < C := by
      rcases Nat.eq_zero_or_pos C with h | h
      · rw [h, Nat.mul_zero] at hidx
        omega
      · exact h
    have hdiv : idx / C < R := Nat.div_lt_of_lt_mul (mul_comm R C ▸ hidx)
    have hmod : idx % C < C := Nat.mod_lt _ hC
    rw [List.getElem_map, List.getElem_range]
    rw [show (⟨C, C, (List.range (C * C)).map
        (fun idx => if idx / C = idx % C then 1 else 0)⟩ : Matrix) =
        Matrix.identity C from rfl]
    rw [dotU_eq_sum]
    dsimp only
    have hstep : ∀ x ∈ Finset.range C,
        getU ⟨R, C, data⟩ (idx / C) x * getU (Matrix.identity C) x (idx % C) =
        if x = idx % C then getU ⟨R, C, data⟩ (idx / C) x else 0 := by
      intro x hx
      rw [getU_identity (Finset.mem_range.mp hx) hmod]
      split
      · simp
      · simp
    rw [Finset.sum_congr rfl hstep, Finset.sum_ite_eq' (Finset.range C) (idx % C)]
    rw [if_pos (Finset.mem_range.mpr hmod)]
    unfold getU
    dsimp only
    rw [Nat.div_add_mod' idx C, List.getD_eq_getElem?_getD,
      List.getElem?_eq_getElem (by omega)]
    rfl

/-! ### Dimension bookkeeping for `inverse` -/

theorem set_ok_dims {m m' : Matrix} {r c : ℕ} {v : ℚ} (h : Matrix.set m r c v = .ok m') :
    m'.rows = m.rows ∧ m'.cols = m.cols := ⟨set_ok_rows h, set_ok_cols h⟩

theorem elemental_i_dims {n i j : ℕ} {m : Matrix} (h : Matrix.elemental_i n i j = .ok m) :
    m.rows = n ∧ m.cols = n := by
  unfold Matrix.elemental_i at h
  simp only [bind, Except.bind] at h
  split at h
  · cases h
  · rename_i m1 h1
    split at h
    · cases h
    · rename_i m2 h2
      split at h
      · cases h
      · rename_i m3 h3
        refine ⟨?_, ?_⟩
        · rw [set_ok_rows h, set_ok_rows h3, set_ok_rows h2, set_ok_rows h1]
          rfl
        · rw [set_ok_cols h, set_ok_cols h3, set_ok_cols h2, set_ok_cols h1]
          rfl

theorem elemental_ii_dims {n i : ℕ} {s : ℚ} {m : Matrix}
    (h : Matrix.elemental_ii n i s = .ok m) : m.rows = n ∧ m.cols = n := by
  unfold Matrix.elemental_ii at h
  exact ⟨by rw [set_ok_rows h]; rfl, by rw [set_ok_cols h]; rfl⟩

theorem elemental_iii_dims {n i j : ℕ} {s : ℚ} {m : Matrix}
    (h : Matrix.elemental_iii n i j s = .ok m) : m.rows = n ∧ m.cols = n := by
  unfold Matrix.elemental_iii at h
  exact ⟨by rw [set_ok_rows h]; rfl, by rw [set_ok_cols h]; rfl⟩

theorem invElimList_ok_acc_dims {n k : ℕ} : ∀ {is : List ℕ} {m a m' a' : Matrix},
    invElimList n k is m a = .ok (m', a') → a.rows = n → a.cols = n →
    a'.rows = n ∧ a'.cols = n
  | [], _, _, _, _, h, hr, hc => by cases h; exact ⟨hr, hc⟩
  | i :: is, m, a, m', a', h, hr, hc => by
      unfold invElimList at h
      split at h
      · exact invElimList_ok_acc_dims h hr hc
      · split at h
        · cases h
        · rename_i elim helim
          split at h
          · cases h
          · split at h
            · cases h
            · rename_i m1 hm1 a1 ha1
              refine invElimList_ok_acc_dims h ?_ ?_
              · rw [multiply_ok_eq ha1, mulU_rows, (elemental_iii_dims helim).1]
              · rw [multiply_ok_eq ha1, mulU_cols, hc]

theorem invStep_ok_acc_dims {n k : ℕ} {m a m' a' : Matrix}
    (h : invStep n k m a = .ok (m', a')) (hr : a.rows = n) (hc : a.cols = n) :
    a'.rows = n ∧ a'.cols = n := by
  unfold invStep at h
  split at h
  · cases h
  · rename_i p m1 a1 hsw
    have ha1 : a1.rows = n ∧ a1.cols = n := by
      unfold invSwap at hsw
      dsimp only at hsw
      split at hsw
      · split at hsw
        · cases hsw
        · split at hsw
          · cases hsw
          · rename_i perm hperm
            split at hsw
            · cases hsw
            · split at hsw
              · cases hsw
              · rename_i ha1'
                cases hsw
                exact ⟨by rw [multiply_ok_eq ha1', mulU_rows, (elemental_i_dims hperm).1],
                  by rw [multiply_ok_eq ha1', mulU_cols, hc]⟩
      · cases hsw
        exact ⟨hr, hc⟩
    split at h
    · cases h
    · rename_i sc hsc
      split at h
      · cases h
      · split at h
        · cases h
        · rename_i a2 ha2
          refine invElimList_ok_acc_dims h ?_ ?_
          · rw [multiply_ok_eq ha2, mulU_rows, (elemental_ii_dims hsc).1]
          · rw [multiply_ok_eq ha2, mulU_cols, ha1.2]

theorem invGo_ok_dims {n : ℕ} : ∀ {ks : List ℕ} {m a b : Matrix},
    invGo n ks m a = .ok b → a.rows = n → a.cols = n → b.rows = n ∧ b.cols = n
  | [], _, a, b, h, hr, hc => by cases h; exact ⟨hr, hc⟩
  | k :: ks, m, a, b, h, hr, hc => by
      unfold invGo at h
      split at h
      · cases h
      · rename_i m3 a3 hstep
        have := invStep_ok_acc_dims hstep hr hc
        exact invGo_ok_dims h this.1 this.2

theorem inverse_ok_dims {a b : Matrix} (h : Matrix.inverse a = .ok b) :
    b.rows = a.rows ∧ b.cols = a.rows := by
  unfold Matrix.inverse at h
  split at h
  · cases h
  · dsimp only at h
    split at h
    · cases h
    · exact invGo_ok_dims h rfl rfl

theorem inverse_ok_square {a b : Matrix} (h : Matrix.inverse a = .ok b) :
    Matrix.is_square a = true := by
  unfold Matrix.inverse at h
  split at h
  · cases h
  · rename_i hs
    simpa using hs

theorem rustCastToU64_natCast (n : ℕ) : rustCastToU64 (n : ℚ) = min n USIZE_MAX := by
  simp [rustCastToU64]

/-! ### C6: integer powers -/

/-- The claim's n-fold self-multiplication of a square matrix, with the
0th power the identity. -/
def selfMul (A : Matrix) : ℕ → Matrix
  | 0 => Matrix.identity A.rows
  | n + 1 => Matrix.mulU A (selfMul A n)

/-- Proof-side unrolling of `powLoop`: iterate `result := base * result`. -/
def powIter (base : Matrix) : ℕ → Matrix → Matrix
  | 0, r => r
  | e + 1, r => powIter base e (Matrix.mulU base r)

theorem powLoop_ok {base : Matrix} (hsq : base.cols = base.rows) : ∀ (e : ℕ) (r : Matrix),
    r.rows = base.rows → powLoop base e r = .ok (powIter base e r)
  | 0, _, _ => rfl
  | e + 1, r, hr => by
      unfold powLoop powIter
      rw [show Matrix.multiply base r = .ok (Matrix.mulU base r) by
        unfold Matrix.multiply
        rw [if_neg (by omega)]]
      exact powLoop_ok hsq e _ (by rw [mulU_rows])

theorem powIter_mulU_comm (base : Matrix) : ∀ (e : ℕ) (r : Matrix),
    powIter base e (Matrix.mulU base r) = Matrix.mulU base (powIter base e r)
  | 0, _ => rfl
  | e + 1, r => by
      unfold powIter
      rw [powIter_mulU_comm base e (Matrix.mulU base r)]

theorem powIter_identity (A : Matrix) : ∀ n : ℕ,
    powIter A n (Matrix.identity A.rows) = selfMul A n
  | 0 => rfl
  | n + 1 => by
      unfold powIter selfMul
      rw [powIter_mulU_comm, powIter_identity A n]

theorem fract_natCast (n : ℕ) : fract ((n : ℕ) : ℚ) = 0 := by
  unfold fract rustTrunc
  rw [if_pos (by positivity)]
  rw [Int.floor_natCast]
  simp

theorem fract_neg_one : fract (-1 : ℚ) = 0 := by
  unfold fract rustTrunc
  norm_num

/-- C6.  `Matrix::pow` computes integer powers by repeated
multiplication: for every square `A` and natural `n` (in `usize` range,
as forced by the `as usize` cast in the source), `pow(A, n)` succeeds and
equals the `n`-fold self-multiplication of `A`; `pow(A, 0)` is the
identity; and for every `A` whose inverse exists, `pow(A, -1)` equals
(exactly, hence tolerance-equals) `inverse(A)`. -/
theorem c6_pow_self_multiplication :
    (∀ (A : Matrix) (n : ℕ), A.rows = A.cols → n ≤ USIZE_MAX →
      Matrix.pow A (n : ℚ) = .ok (selfMul A n)) ∧
    (∀ A : Matrix, A.rows = A.cols → Matrix.pow A 0 = .ok (Matrix.identity A.rows)) ∧
    (∀ A B : Matrix, Matrix.inverse A = .ok B → Matrix.pow A (-1) = .ok B) := by
  have main : ∀ (A : Matrix) (n : ℕ), A.rows = A.cols → n ≤ USIZE_MAX →
      Matrix.pow A (n : ℚ) = .ok (selfMul A n) := by
    intro A n hsq hle
    unfold Matrix.pow
    rw [if_neg (by simp [Matrix.is_square, hsq])]
    rw [fract_natCast]
    rw [if_neg (by simp [nearly_equal])]
    rw [if_neg (not_lt.mpr (Nat.cast_nonneg n))]
    dsimp only
    rw [abs_of_nonneg (by positivity), rustCastToU64_natCast, min_eq_left hle]
    rw [powLoop_ok hsq.symm n (Matrix.identity A.rows) rfl]
    rw [powIter_identity]
  refine ⟨main, ?_, ?_⟩
  · intro A hsq
    have h := main A 0 hsq (by norm_num [USIZE_MAX])
    rw [Nat.cast_zero] at h
    exact h
  · intro A B h
    have hsq := inverse_ok_square h
    have hdims := inverse_ok_dims h
    unfold Matrix.pow
    rw [if_neg (by simp [hsq])]
    rw [fract_neg_one]
    rw [if_neg (by simp [nearly_equal])]
    rw [if_pos (by norm_num)]
    rw [h]
    dsimp only
    rw [show rustCastToU64 |(-1 : ℚ)| = 1 by
      rw [show |(-1 : ℚ)| = 1 by norm_num]
      unfold rustCastToU64 USIZE_MAX
      norm_num]
    unfold powLoop
    rw [show Matrix.multiply B (Matrix.identity A.rows) = .ok (Matrix.mulU B (Matrix.identity A.rows)) by
      unfold Matrix.multiply
      rw [if_neg (by rw [hdims.2]; exact fun hc => hc rfl)]]
    unfold powLoop
    rw [show Matrix.mulU B (Matrix.identity A.rows) = B by
      rw [show A.rows = B.cols from hdims.2.symm]
      exact mulU_identity_right (inverse_ok_wf h)]

/-- Witness for C6 at `A = [[2,1],[1,1]]`: `A^2 = [[5,3],[3,2]]`,
`A^0 = identity`, `A^-1 = [[1,-1],[-1,2]]`. -/
theorem c6_pow_self_multiplication_witness :
    Matrix.pow (Matrix.mk 2 2 [2, 1, 1, 1]) ((2 : ℕ) : ℚ) =
      .ok (selfMul (Matrix.mk 2 2 [2, 1, 1, 1]) 2) ∧
    Matrix.pow (Matrix.mk 2 2 [2, 1, 1, 1]) 0 = .ok (Matrix.identity 2) ∧
    Matrix.pow (Matrix.mk 2 2 [2, 1, 1, 1]) (-1) = .ok (Matrix.mk 2 2 [1, -1, -1, 2]) :=
  ⟨c6_pow_self_multiplication.1 (Matrix.mk 2 2 [2, 1, 1, 1]) 2 rfl (by decide),
   c6_pow_self_multiplication.2.1 (Matrix.mk 2 2 [2, 1, 1, 1]) rfl,
   c6_pow_self_multiplication.2.2 (Matrix.mk 2 2 [2, 1, 1, 1]) (Matrix.mk 2 2 [1, -1, -1, 2])
     (by with_unfolding_all decide)⟩

/-! ### C10: factorial overflows in u64 -/

theorem foldl_mul_mod_lt : ∀ (l : List ℕ) (acc : ℕ), acc < 2 ^ 64 →
    l.foldl (fun result i => result * i % 2 ^ 64) acc < 2 ^ 64
  | [], _, h => h
  | _ :: is, _, _ =>
      foldl_mul_mod_lt is _ (Nat.mod_lt _ (by positivity))

theorem factLoop_lt (n : ℕ) : Fn.factLoop n < 2 ^ 64 :=
  foldl_mul_mod_lt _ 1 (by norm_num)

/-- C10.  For every integer `n ≥ 21`, `factorial(Scalar(n))` succeeds but
returns a value different from the mathematical `n!`: the product
`2..=n` is accumulated in wrapping 64-bit unsigned arithmetic
(`% 2^64` per step) before being converted back to a float, so the result
is below `2^64 < 21! ≤ n!`. -/
theorem c10_factorial_wraps (n : ℕ) (h : 21 ≤ n) :
    ∃ v : ℚ, Fn.factorial (.Scalar (n : ℚ)) = .ok (.Scalar v) ∧
      v ≠ (Nat.factorial n : ℚ) := by
  refine ⟨((Fn.factLoop (min n USIZE_MAX) : ℕ) : ℚ), ?_, ?_⟩
  · unfold Fn.factorial
    dsimp only
    rw [if_neg (not_lt.mpr (by positivity)), rustCastToU64_natCast]
  · intro he
    have h1 : Fn.factLoop (min n USIZE_MAX) < 2 ^ 64 := factLoop_lt _
    have h2 : (2 : ℕ) ^ 64 < Nat.factorial 21 := by decide
    have h3 : Nat.factorial 21 ≤ Nat.factorial n := Nat.factorial_le h
    have h4 : Fn.factLoop (min n USIZE_MAX) = Nat.factorial n := Nat.cast_inj.mp he
    omega

/-- Witness for C10 at `n = 21` (the wrapped value is
`21! mod 2^64 = 14197454024290336768 ≠ 21!`). -/
theorem c10_factorial_wraps_witness :
    ∃ v : ℚ, Fn.factorial (.Scalar ((21 : ℕ) : ℚ)) = .ok (.Scalar v) ∧
      v ≠ (Nat.factorial 21 : ℚ) :=
  c10_factorial_wraps 21 (by decide)


/-! ### Entry-level effects of the primitive row operations -/

theorem getU_setU_eq {m : Matrix} (hwf : m.wf) {r c : ℕ} (hr : r < m.rows)
    (hc : c < m.cols) (v : ℚ) : getU (setU m r c v) r c = v := by
  unfold getU setU
  dsimp only
  rw [List.getD_eq_getElem?_getD, List.getElem?_set]
  rw [if_pos rfl, if_pos (by rw [hwf]; exact linear_idx_lt hr hc)]
  rfl

theorem getU_setU_ne {m : Matrix} {r c r' c' : ℕ} (h : r ≠ r' ∨ c ≠ c')
    (hc : c < m.cols) (hc' : c' < m.cols) (v : ℚ) :
    getU (setU m r c v) r' c' = getU m r' c' := by
  unfold getU setU
  dsimp only
  rw [List.getD_eq_getElem?_getD, List.getElem?_set, if_neg, ← List.getD_eq_getElem?_getD]
  intro heq
  have h1 : (r * m.cols + c) / m.cols = (r' * m.cols + c') / m.cols := by rw [heq]
  have h2 : (r * m.cols + c) % m.cols = (r' * m.cols + c') % m.cols := by rw [heq]
  rw [linear_idx_div hc, linear_idx_div hc'] at h1
  rw [linear_idx_mod hc, linear_idx_mod hc'] at h2
  rcases h with h | h
  · exact h h1
  · exact h h2

theorem swapGo_rows (k i : ℕ) : ∀ (js : List ℕ) (m : Matrix), (swapGo k i js m).rows = m.rows
  | [], _ => rfl
  | _ :: js, m => swapGo_rows k i js _

theorem swapGo_cols (k i : ℕ) : ∀ (js : List ℕ) (m : Matrix), (swapGo k i js m).cols = m.cols
  | [], _ => rfl
  | _ :: js, m => swapGo_cols k i js _

theorem elimRowGo_rows (k i : ℕ) (f : ℚ) : ∀ (js : List ℕ) (m : Matrix),
    (elimRowGo k i f js m).rows = m.rows
  | [], _ => rfl
  | _ :: js, m => elimRowGo_rows k i f js _

theorem elimRowGo_cols (k i : ℕ) (f : ℚ) : ∀ (js : List ℕ) (m : Matrix),
    (elimRowGo k i f js m).cols = m.cols
  | [], _ => rfl
  | _ :: js, m => elimRowGo_cols k i f js _

theorem elimBelowGo_rows (n k : ℕ) (p : ℚ) : ∀ (is : List ℕ) (m : Matrix),
    (elimBelowGo n k p is m).rows = m.rows
  | [], _ => rfl
  | _ :: is, m => by
      unfold elimBelowGo
      rw [elimBelowGo_rows n k p is _, elimRowGo_rows]

theorem elimBelowGo_cols (n k : ℕ) (p : ℚ) : ∀ (is : List ℕ) (m : Matrix),
    (elimBelowGo n k p is m).cols = m.cols
  | [], _ => rfl
  | _ :: is, m => by
      unfold elimBelowGo
      rw [elimBelowGo_cols n k p is _, elimRowGo_cols]

/-- Entry-level effect of the column-by-column row swap: on the listed
columns rows `k` and `i` exchange their entries, all else unchanged. -/
theorem swapGo_entry {k i : ℕ} (hki : k ≠ i) :
    ∀ {js : List ℕ} {m : Matrix}, m.wf → k < m.rows → i < m.rows →
      js.Nodup → (∀ j ∈ js, j < m.cols) → ∀ r c : ℕ, c < m.cols →
      getU (swapGo k i js m) r c =
        if r = k ∧ c ∈ js then getU m i c
        else if r = i ∧ c ∈ js then getU m k c
        else getU m r c
  | [], m, _, _, _, _, _, r, c, _ => by simp [swapGo]
  | j :: js, m, hwf, hk, hi, hnd, hjs, r, c, hc => by
      unfold swapGo
      dsimp only
      have hj : j < m.cols := hjs j (by simp)
      have hjnotin : j ∉ js := (List.nodup_cons.mp hnd).1
      have hwf1 : (setU m k j (getU m i j)).wf := setU_wf hwf _ _ _
      have hwf2 : (setU (setU m k j (getU m i j)) i j (getU m k j)).wf := setU_wf hwf1 _ _ _
      have hj1 : j < (setU m k j (getU m i j)).cols := hj
      have hc1 : c < (setU m k j (getU m i j)).cols := hc
      have hk1 : k < (setU m k j (getU m i j)).rows := hk
      have hi1 : i < (setU m k j (getU m i j)).rows := hi
      rw [swapGo_entry hki hwf2 hk hi (List.nodup_cons.mp hnd).2
        (fun x hx => hjs x (by simp [hx])) r c hc]
      by_cases hcj : c = j
      · have hcin : c ∈ j :: js := by simp [hcj]
        have hcnotin : ¬ (c ∈ js) := fun h => hjnotin (hcj ▸ h)
        by_cases hrk : r = k
        · rw [if_neg (fun h => hcnotin h.2), if_neg (fun h => hcnotin h.2),
            if_pos ⟨hrk, hcin⟩, hrk, hcj]
          rw [getU_setU_ne (Or.inl (Ne.symm hki)) hj1 hj1, getU_setU_eq hwf hk hj]
        · by_cases hri : r = i
          · rw [if_neg (fun h => hcnotin h.2), if_neg (fun h => hcnotin h.2),
              if_neg (fun h => hrk h.1), if_pos ⟨hri, hcin⟩, hri, hcj]
            rw [getU_setU_eq hwf1 hi1 hj1]
          · rw [if_neg (fun h => hcnotin h.2), if_neg (fun h => hcnotin h.2),
              if_neg (fun h => hrk h.1), if_neg (fun h => hri h.1)]
            rw [getU_setU_ne (Or.inl (fun h => hri h.symm)) hj1 hc1,
              getU_setU_ne (Or.inl (fun h => hrk h.symm)) hj hc]
      · have hmem : (c ∈ j :: js) = (c ∈ js) := by simp [hcj]
        have e2 : ∀ r' : ℕ, getU (setU (setU m k j (getU m i j)) i j (getU m k j)) r' c
            = getU m r' c := fun r' => by
          rw [getU_setU_ne (Or.inr (fun hjc => hcj hjc.symm)) hj1 hc1,
            getU_setU_ne (Or.inr (fun hjc => hcj hjc.symm)) hj hc]
        rw [e2, e2, e2]
        simp only [hmem]

/-- Entry-level effect of the inner elimination loop: on the listed
columns row `i` becomes `row i - factor * row k`, all else unchanged. -/
theorem elimRowGo_entry {k i : ℕ} (hik : i ≠ k) (f : ℚ) :
    ∀ {js : List ℕ} {m : Matrix}, m.wf → i < m.rows →
      js.Nodup → (∀ j ∈ js, j < m.cols) → ∀ r c : ℕ, c < m.cols →
      getU (elimRowGo k i f js m) r c =
        if r = i ∧ c ∈ js then getU m i c - f * getU m k c
        else getU m r c
  | [], m, _, _, _, _, r, c, _ => by simp [elimRowGo]
  | j :: js, m, hwf, hi, hnd, hjs, r, c, hc => by
      unfold elimRowGo
      have hj : j < m.cols := hjs j (by simp)
      have hjnotin : j ∉ js := (List.nodup_cons.mp hnd).1
      have hwf1 : (setU m i j (getU m i j - f * getU m k j)).wf := setU_wf hwf _ _ _
      have hj1 : j < (setU m i j (getU m i j - f * getU m k j)).cols := hj
      have hc1 : c < (setU m i j (getU m i j - f * getU m k j)).cols := hc
      rw [elimRowGo_entry hik f hwf1 hi (List.nodup_cons.mp hnd).2
        (fun x hx => hjs x (by simp [hx])) r c hc]
      by_cases hcj : c = j
      · have hcin : c ∈ j :: js := by simp [hcj]
        have hcnotin : ¬ (c ∈ js) := fun h => hjnotin (hcj ▸ h)
        by_cases hri : r = i
        · rw [if_neg (fun h => hcnotin h.2), if_pos ⟨hri, hcin⟩, hri, hcj]
          rw [getU_setU_eq hwf hi hj]
        · rw [if_neg (fun h => hcnotin h.2), if_neg (fun h => hri h.1)]
          rw [getU_setU_ne (Or.inl (fun h => hri h.symm)) hj hc]
      · have hmem : (c ∈ j :: js) = (c ∈ js) := by simp [hcj]
        have hro : ∀ r' : ℕ, getU (setU m i j (getU m i j - f * getU m k j)) r' c
            = getU m r' c := fun r' =>
          getU_setU_ne (Or.inr (fun h => hcj h.symm)) hj hc _
        rw [hro, hro, hro]
        simp only [hmem]

/-- Entry-level effect of the outer elimination loop: each listed row `i`
becomes `row i - (m[i][k]/p) * row k` on columns `k..n-1`. -/
theorem elimBelowGo_entry {n k : ℕ} (p : ℚ) (hkn : k < n) :
    ∀ {is : List ℕ} {m : Matrix}, m.wf → m.rows = n → m.cols = n →
      is.Nodup → (∀ i ∈ is, i < n ∧ k < i) → ∀ r c : ℕ, c < n →
      getU (elimBelowGo n k p is m) r c =
        if r ∈ is ∧ k ≤ c ∧ c < n then getU m r c - getU m r k / p * getU m k c
        else getU m r c
  | [], m, _, _, _, _, _, r, c, _ => by simp [elimBelowGo]
  | i :: is, m, hwf, hrows, hcols, hnd, his, r, c, hc => by
      unfold elimBelowGo
      have hik : i ≠ k := Nat.ne_of_gt (his i (by simp)).2
      have hi : i < m.rows := by rw [hrows]; exact (his i (by simp)).1
      have hinotin : i ∉ is := (List.nodup_cons.mp hnd).1
      have hjslt : ∀ j ∈ List.range' k (n - k), j < m.cols := by
        intro j hj
        rw [hcols]
        have := List.mem_range'_1.mp hj
        omega
      have hcm : c < m.cols := by rw [hcols]; exact hc
      have hkm : k < m.cols := by rw [hcols]; exact hkn
      have hentry : ∀ r' c' : ℕ, c' < m.cols →
          getU (elimRowGo k i (getU m i k / p) (List.range' k (n - k)) m) r' c' =
            if r' = i ∧ c' ∈ List.range' k (n - k)
            then getU m i c' - getU m i k / p * getU m k c'
            else getU m r' c' := fun r' c' hc' =>
        elimRowGo_entry hik _ hwf hi (List.nodup_range' k (n - k)) hjslt r' c' hc'
      have hmemc : (c ∈ List.range' k (n - k)) = (k ≤ c ∧ c < n) := by
        rw [List.mem_range'_1]
        have : k + (n - k) = n := by omega
        rw [this]
      rw [elimBelowGo_entry p hkn (elimRowGo_wf hwf)
        (by rw [elimRowGo_rows]; exact hrows) (by rw [elimRowGo_cols]; exact hcols)
        (List.nodup_cons.mp hnd).2 (fun x hx => his x (by simp [hx])) r c hc]
      by_cases hri : r = i
      · have hrnotin : ¬ (r ∈ is) := fun h => hinotin (hri ▸ h)
        rw [if_neg (fun h => hrnotin h.1)]
        rw [hentry r c hcm, hri]
        by_cases hck : k ≤ c ∧ c < n
        · rw [if_pos ⟨rfl, by rw [hmemc]; exact hck⟩, if_pos ⟨by simp, hck⟩]
        · rw [if_neg (fun h => hck (hmemc ▸ h.2)), if_neg (fun h => hck h.2)]
      · have hrr : ∀ c' : ℕ, c' < m.cols →
            getU (elimRowGo k i (getU m i k / p) (List.range' k (n - k)) m) r c'
              = getU m r c' := fun c' hc' => by
          rw [hentry r c' hc', if_neg (fun h => hri h.1)]
        have hkk : ∀ c' : ℕ, c' < m.cols →
            getU (elimRowGo k i (getU m i k / p) (List.range' k (n - k)) m) k c'
              = getU m k c' := fun c' hc' => by
          rw [hentry k c' hc', if_neg (fun h => hik h.1.symm)]
        rw [hrr c hcm, hrr k hkm, hkk c hcm]
        have hmem : (r ∈ i :: is) = (r ∈ is) := by simp [hri]
        simp only [hmem]

/-- Explicit `setU`-chain values of the elemental-matrix constructors when
all indices are in range, and the entries of the type-I chain. -/
theorem identity_rows (n : ℕ) : (Matrix.identity n).rows = n := rfl

theorem identity_cols (n : ℕ) : (Matrix.identity n).cols = n := rfl

theorem set_in_range {m : Matrix} {r c : ℕ} (hr : r < m.rows) (hc : c < m.cols) (v : ℚ) :
    Matrix.set m r c v = .ok (setU m r c v) := by
  unfold Matrix.set
  rw [if_neg (by push_neg; exact ⟨hr, hc⟩)]

theorem elemental_i_eq {n a b : ℕ} (ha : a < n) (hb : b < n) :
    Matrix.elemental_i n a b =
      .ok (setU (setU (setU (setU (Matrix.identity n) a a 0) a b 1) b b 0) b a 1) := by
  have h0r : a < (Matrix.identity n).rows := ha
  have h0c : a < (Matrix.identity n).cols := ha
  have h1r : a < (setU (Matrix.identity n) a a 0).rows := ha
  have h1c : b < (setU (Matrix.identity n) a a 0).cols := hb
  have h2r : b < (setU (setU (Matrix.identity n) a a 0) a b 1).rows := hb
  have h2c : b < (setU (setU (Matrix.identity n) a a 0) a b 1).cols := hb
  have h3r : b < (setU (setU (setU (Matrix.identity n) a a 0) a b 1) b b 0).rows := hb
  have h3c : a < (setU (setU (setU (Matrix.identity n) a a 0) a b 1) b b 0).cols := ha
  unfold Matrix.elemental_i
  simp only [bind, Except.bind]
  rw [set_in_range h0r h0c]
  dsimp only
  rw [set_in_range h1r h1c]
  dsimp only
  rw [set_in_range h2r h2c]
  dsimp only
  rw [set_in_range h3r h3c]

theorem elemental_ii_eq {n a : ℕ} (ha : a < n) (s : ℚ) :
    Matrix.elemental_ii n a s = .ok (setU (Matrix.identity n) a a s) := by
  have h0r : a < (Matrix.identity n).rows := ha
  have h0c : a < (Matrix.identity n).cols := ha
  unfold Matrix.elemental_ii
  rw [set_in_range h0r h0c]

theorem elemental_iii_eq {n a b : ℕ} (ha : a < n) (hb : b < n) (s : ℚ) :
    Matrix.elemental_iii n a b s = .ok (setU (Matrix.identity n) a b s) := by
  have h0r : a < (Matrix.identity n).rows := ha
  have h0c : b < (Matrix.identity n).cols := hb
  unfold Matrix.elemental_iii
  rw [set_in_range h0r h0c]

theorem perm_row {n a b : ℕ} (hab : a ≠ b) (ha : a < n) (hb : b < n) (x y : ℕ)
    (hx : x < n) (hy : y < n) :
    getU (setU (setU (setU (setU (Matrix.identity n) a a 0) a b 1) b b 0) b a 1) x y =
      if y = (if x = a then b else if x = b then a else x) then 1 else 0 := by
  have w0 : (Matrix.identity n).wf := identity_wf n
  have w1 : (setU (Matrix.identity n) a a 0).wf := setU_wf w0 _ _ _
  have w2 : (setU (setU (Matrix.identity n) a a 0) a b 1).wf := setU_wf w1 _ _ _
  have w3 : (setU (setU (setU (Matrix.identity n) a a 0) a b 1) b b 0).wf := setU_wf w2 _ _ _
  have c0a : a < (Matrix.identity n).cols := ha
  have c0y : y < (Matrix.identity n).cols := hy
  have c1b : b < (setU (Matrix.identity n) a a 0).cols := hb
  have c1y : y < (setU (Matrix.identity n) a a 0).cols := hy
  have c2b : b < (setU (setU (Matrix.identity n) a a 0) a b 1).cols := hb
  have c2y : y < (setU (setU (Matrix.identity n) a a 0) a b 1).cols := hy
  have c3a : a < (setU (setU (setU (Matrix.identity n) a a 0) a b 1) b b 0).cols := ha
  have c3b : b < (setU (setU (setU (Matrix.identity n) a a 0) a b 1) b b 0).cols := hb
  have r1a : a < (setU (Matrix.identity n) a a 0).rows := ha
  have r2b : b < (setU (setU (Matrix.identity n) a a 0) a b 1).rows := hb
  have r3b : b < (setU (setU (setU (Matrix.identity n) a a 0) a b 1) b b 0).rows := hb
  have c3y : y < (setU (setU (setU (Matrix.identity n) a a 0) a b 1) b b 0).cols := hy
  by_cases hxa : x = a
  · rw [if_pos hxa]
    by_cases hyb : y = b
    · rw [if_pos hyb, hxa, hyb]
      rw [getU_setU_ne (Or.inl (Ne.symm hab)) c3a c3b,
        getU_setU_ne (Or.inl (Ne.symm hab)) c2b c2b,
        getU_setU_eq w1 r1a c1b]
    · rw [if_neg hyb, hxa]
      rw [getU_setU_ne (Or.inl (Ne.symm hab)) c3a c3y,
        getU_setU_ne (Or.inl (Ne.symm hab)) c2b c2y,
        getU_setU_ne (Or.inr (fun h => hyb h.symm)) c1b c1y]
      by_cases hya : y = a
      · rw [hya, getU_setU_eq w0 ha c0a]
      · rw [getU_setU_ne (Or.inr (fun h => hya h.symm)) c0a c0y,
          getU_identity ha hy, if_neg (fun h => hya h.symm)]
  · by_cases hxb : x = b
    · rw [if_neg hxa, if_pos hxb]
      by_cases hya : y = a
      · rw [if_pos hya, hxb, hya]
        rw [getU_setU_eq w3 r3b c3a]
      · rw [if_neg hya, hxb]
        rw [getU_setU_ne (Or.inr (fun h => hya h.symm)) c3a c3y]
        by_cases hyb : y = b
        · rw [hyb, getU_setU_eq w2 r2b c2b]
        · rw [getU_setU_ne (Or.inr (fun h => hyb h.symm)) c2b c2y,
            getU_setU_ne (Or.inl hab) c1b c1y,
            getU_setU_ne (Or.inl hab) c0a c0y,
            getU_identity hb hy, if_neg (fun h => hyb h.symm)]
    · rw [if_neg hxa, if_neg hxb]
      rw [getU_setU_ne (Or.inl (fun h => hxb h.symm)) c3a c3y,
        getU_setU_ne (Or.inl (fun h => hxb h.symm)) c2b c2y,
        getU_setU_ne (Or.inl (fun h => hxa h.symm)) c1b c1y,
        getU_setU_ne (Or.inl (fun h => hxa h.symm)) c0a c0y,
        getU_identity hx hy]
      by_cases hxy : x = y
      · rw [if_pos hxy, if_pos hxy.symm]
      · rw [if_neg hxy, if_neg (fun h => hxy h.symm)]

/-- Entry-level effect of left-multiplication by each elemental matrix:
type I swaps rows `a` and `b`, type II scales row `a`, type III adds
`s` times row `b` to row `a`. -/
theorem sum_single_mul {n t : ℕ} (ht : t < n) (v : ℚ) (f : ℕ → ℚ) :
    (∑ x ∈ Finset.range n, (if x = t then v else 0) * f x) = v * f t := by
  have h : ∀ x ∈ Finset.range n, (if x = t then v else 0) * f x
      = if x = t then v * f x else 0 := by
    intro x _
    split <;> simp
  rw [Finset.sum_congr rfl h, Finset.sum_ite_eq' (Finset.range n) t (fun x => v * f x),
    if_pos (Finset.mem_range.mpr ht)]

theorem mulU_perm_entry {n a b : ℕ} {P M : Matrix} (hab : a ≠ b) (ha : a < n) (hb : b < n)
    (hP : Matrix.elemental_i n a b = .ok P) (r c : ℕ) (hr : r < n) (hc : c < M.cols) :
    getU (Matrix.mulU P M) r c =
      if r = a then getU M b c else if r = b then getU M a c else getU M r c := by
  rw [elemental_i_eq ha hb] at hP
  injection hP with hP
  subst hP
  have hrP : r < (setU (setU (setU (setU (Matrix.identity n) a a 0) a b 1) b b 0) b a 1).rows :=
    hr
  rw [getU_mulU hrP hc, dotU_eq_sum]
  have hcols : (setU (setU (setU (setU (Matrix.identity n) a a 0) a b 1) b b 0) b a 1).cols
      = n := rfl
  rw [hcols]
  have hrow : ∀ x ∈ Finset.range n,
      getU (setU (setU (setU (setU (Matrix.identity n) a a 0) a b 1) b b 0) b a 1) r x
        * getU M x c
      = (if x = (if r = a then b else if r = b then a else r) then 1 else 0)
        * getU M x c := by
    intro x hx
    rw [perm_row hab ha hb r x hr (Finset.mem_range.mp hx)]
  have hsn : (if r = a then b else if r = b then a else r) < n := by
    split_ifs <;> assumption
  rw [Finset.sum_congr rfl hrow, sum_single_mul hsn 1 (fun x => getU M x c), one_mul]
  split_ifs <;> rfl

theorem scale_row {n a : ℕ} (ha : a < n) (s : ℚ) (x y : ℕ) (hx : x < n) (hy : y < n) :
    getU (setU (Matrix.identity n) a a s) x y =
      if x = a then (if y = a then s else 0) else (if x = y then 1 else 0) := by
  have c0a : a < (Matrix.identity n).cols := ha
  have c0y : y < (Matrix.identity n).cols := hy
  by_cases hxa : x = a
  · rw [if_pos hxa, hxa]
    by_cases hya : y = a
    · rw [if_pos hya, hya, getU_setU_eq (identity_wf n) ha c0a]
    · rw [if_neg hya, getU_setU_ne (Or.inr (fun h => hya h.symm)) c0a c0y,
        getU_identity ha hy, if_neg (fun h => hya h.symm)]
  · rw [if_neg hxa, getU_setU_ne (Or.inl (fun h => hxa h.symm)) c0a c0y,
      getU_identity hx hy]

theorem mulU_scale_entry {n a : ℕ} {S M : Matrix} (ha : a < n) {s : ℚ}
    (hS : Matrix.elemental_ii n a s = .ok S) (r c : ℕ) (hr : r < n) (hc : c < M.cols) :
    getU (Matrix.mulU S M) r c = if r = a then s * getU M a c else getU M r c := by
  rw [elemental_ii_eq ha s] at hS
  injection hS with hS
  subst hS
  have hrS : r < (setU (Matrix.identity n) a a s).rows := hr
  rw [getU_mulU hrS hc, dotU_eq_sum]
  have hcols : (setU (Matrix.identity n) a a s).cols = n := rfl
  rw [hcols]
  by_cases hra : r = a
  · have hrow : ∀ x ∈ Finset.range n,
        getU (setU (Matrix.identity n) a a s) r x * getU M x c
        = (if x = a then s else 0) * getU M x c := by
      intro x hx
      rw [scale_row ha s r x hr (Finset.mem_range.mp hx), if_pos hra]
    rw [Finset.sum_congr rfl hrow, sum_single_mul ha s (fun x => getU M x c), if_pos hra]
  · have hrow : ∀ x ∈ Finset.range n,
        getU (setU (Matrix.identity n) a a s) r x * getU M x c
        = (if x = r then 1 else 0) * getU M x c := by
      intro x hx
      rw [scale_row ha s r x hr (Finset.mem_range.mp hx), if_neg hra]
      by_cases hrx : r = x
      · have hxr : x = r := hrx.symm
        rw [if_pos hrx, if_pos hxr]
      · have hxr : ¬ x = r := fun h => hrx h.symm
        rw [if_neg hrx, if_neg hxr]
    rw [Finset.sum_congr rfl hrow, sum_single_mul hr 1 (fun x => getU M x c), one_mul,
      if_neg hra]

theorem elim_row {n a b : ℕ} (hab : a ≠ b) (ha : a < n) (hb : b < n) (s : ℚ) (x y : ℕ)
    (hx : x < n) (hy : y < n) :
    getU (setU (Matrix.identity n) a b s) x y =
      if x = a then (if y = b then s else if y = a then 1 else 0)
      else (if x = y then 1 else 0) := by
  have c0b : b < (Matrix.identity n).cols := hb
  have c0y : y < (Matrix.identity n).cols := hy
  by_cases hxa : x = a
  · rw [if_pos hxa, hxa]
    by_cases hyb : y = b
    · rw [if_pos hyb, hyb, getU_setU_eq (identity_wf n) ha c0b]
    · rw [if_neg hyb, getU_setU_ne (Or.inr (fun h => hyb h.symm)) c0b c0y,
        getU_identity ha hy]
      by_cases hya : y = a
      · rw [if_pos hya, if_pos hya.symm]
      · rw [if_neg hya, if_neg (fun h => hya h.symm)]
  · rw [if_neg hxa, getU_setU_ne (Or.inl (fun h => hxa h.symm)) c0b c0y,
      getU_identity hx hy]

theorem mulU_elim_entry {n a b : ℕ} {E M : Matrix} (hab : a ≠ b) (ha : a < n) (hb : b < n)
    {s : ℚ} (hE : Matrix.elemental_iii n a b s = .ok E) (r c : ℕ) (hr : r < n)
    (hc : c < M.cols) :
    getU (Matrix.mulU E M) r c =
      if r = a then getU M a c + s * getU M b c else getU M r c := by
  rw [elemental_iii_eq ha hb s] at hE
  injection hE with hE
  subst hE
  have hrE : r < (setU (Matrix.identity n) a b s).rows := hr
  rw [getU_mulU hrE hc, dotU_eq_sum]
  have hcols : (setU (Matrix.identity n) a b s).cols = n := rfl
  rw [hcols]
  by_cases hra : r = a
  · have hrow : ∀ x ∈ Finset.range n,
        getU (setU (Matrix.identity n) a b s) r x * getU M x c
        = (if x = b then s else 0) * getU M x c + (if x = a then 1 else 0) * getU M x c := by
      intro x hx
      rw [elim_row hab ha hb s r x hr (Finset.mem_range.mp hx), if_pos hra]
      by_cases hxb : x = b
      · have hxa : ¬ x = a := fun h => hab (h ▸ hxb)
        rw [if_pos hxb, if_pos hxb, if_neg hxa]
        ring
      · rw [if_neg hxb, if_neg hxb]
        by_cases hxa : x = a
        · rw [if_pos hxa]
          ring
        · rw [if_neg hxa]
          ring
    rw [Finset.sum_congr rfl hrow, Finset.sum_add_distrib,
      sum_single_mul hb s (fun x => getU M x c), sum_single_mul ha 1 (fun x => getU M x c),
      one_mul, if_pos hra, add_comm]
  · have hrow : ∀ x ∈ Finset.range n,
        getU (setU (Matrix.identity n) a b s) r x * getU M x c
        = (if x = r then 1 else 0) * getU M x c := by
      intro x hx
      rw [elim_row hab ha hb s r x hr (Finset.mem_range.mp hx), if_neg hra]
      by_cases hrx : r = x
      · have hxr : x = r := hrx.symm
        rw [if_pos hrx, if_pos hxr]
      · have hxr : ¬ x = r := fun h => hrx h.symm
        rw [if_neg hrx, if_neg hxr]
    rw [Finset.sum_congr rfl hrow, sum_single_mul hr 1 (fun x => getU M x c), one_mul,
      if_neg hra]

/-- Success and entry-level effect of the column-clearing pass of
`inverse` (type-III elementals on every row other than `k`). -/
theorem multiply_of_cols_eq {l r : Matrix} (h : l.cols = r.rows) :
    Matrix.multiply l r = .ok (Matrix.mulU l r) := by
  unfold Matrix.multiply
  rw [if_neg (fun hne => hne h)]

theorem invElimList_effect {n kk : ℕ} (hk : kk < n) :
    ∀ {is : List ℕ} {M A : Matrix}, M.rows = n → M.cols = n →
      A.rows = n → A.cols = n →
      is.Nodup → (∀ i ∈ is, i < n) →
      ∃ M' A', invElimList n kk is M A = .ok (M', A') ∧
        M'.rows = n ∧ M'.cols = n ∧ A'.rows = n ∧ A'.cols = n ∧
        ∀ r c : ℕ, r < n → c < n →
          getU M' r c = if r ∈ is ∧ r ≠ kk
            then getU M r c - getU M r kk * getU M kk c
            else getU M r c
  | [], M, A, hMr, hMc, hAr, hAc, _, _ =>
      ⟨M, A, rfl, hMr, hMc, hAr, hAc, fun r c _ _ => by simp⟩
  | i :: is, M, A, hMr, hMc, hAr, hAc, hnd, his => by
      have hi : i < n := his i (by simp)
      have hinotin : i ∉ is := (List.nodup_cons.mp hnd).1
      unfold invElimList
      by_cases hik : i = kk
      · rw [if_pos hik]
        obtain ⟨M', A', heq, hM'r, hM'c, hA'r, hA'c, hform⟩ :=
          @invElimList_effect n kk hk is _ _ hMr hMc hAr hAc
            (List.nodup_cons.mp hnd).2 (fun x hx => his x (by simp [hx]))
        refine ⟨M', A', heq, hM'r, hM'c, hA'r, hA'c, fun r c hr hc => ?_⟩
        rw [hform r c hr hc]
        have hcond : (r ∈ i :: is ∧ r ≠ kk) = (r ∈ is ∧ r ≠ kk) := by
          simp only [List.mem_cons, eq_iff_iff]
          constructor
          · rintro ⟨h1 | h1, h2⟩
            · exact absurd (h1.trans hik) h2
            · exact ⟨h1, h2⟩
          · exact fun h => ⟨Or.inr h.1, h.2⟩
        simp only [hcond]
      · rw [if_neg hik]
        rw [elemental_iii_eq hi hk (-(getU M i kk))]
        dsimp only
        rw [multiply_of_cols_eq (by rw [hMr]; rfl),
          multiply_of_cols_eq (by rw [hAr]; rfl)]
        dsimp only
        have hE : Matrix.elemental_iii n i kk (-(getU M i kk))
            = .ok (setU (Matrix.identity n) i kk (-(getU M i kk))) :=
          elemental_iii_eq hi hk _
        have hM1r : (Matrix.mulU (setU (Matrix.identity n) i kk (-(getU M i kk))) M).rows
            = n := by rw [mulU_rows]; rfl
        have hM1c : (Matrix.mulU (setU (Matrix.identity n) i kk (-(getU M i kk))) M).cols
            = n := by rw [mulU_cols, hMc]
        have hA1r : (Matrix.mulU (setU (Matrix.identity n) i kk (-(getU M i kk))) A).rows
            = n := by rw [mulU_rows]; rfl
        have hA1c : (Matrix.mulU (setU (Matrix.identity n) i kk (-(getU M i kk))) A).cols
            = n := by rw [mulU_cols, hAc]
        obtain ⟨M', A', heq, hM'r, hM'c, hA'r, hA'c, hform⟩ :=
          @invElimList_effect n kk hk is _ _ hM1r hM1c hA1r hA1c
            (List.nodup_cons.mp hnd).2 (fun x hx => his x (by simp [hx]))
        refine ⟨M', A', heq, hM'r, hM'c, hA'r, hA'c, fun r c hr hc => ?_⟩
        rw [hform r c hr hc]
        have hMcols : ∀ c' : ℕ, c' < n → c' < M.cols := fun c' hc' => by
          rw [hMc]; exact hc'
        have hentry : ∀ r' c' : ℕ, r' < n → c' < n →
            getU (Matrix.mulU (setU (Matrix.identity n) i kk (-(getU M i kk))) M) r' c'
            = if r' = i then getU M i c' + -(getU M i kk) * getU M kk c'
              else getU M r' c' :=
          fun r' c' hr' hc' => mulU_elim_entry hik hi hk hE r' c' hr' (hMcols c' hc')
        by_cases hmem : r ∈ is ∧ r ≠ kk
        · have hri : r ≠ i := fun h => hinotin (h ▸ hmem.1)
          rw [if_pos hmem, if_pos ⟨by simp [hmem.1], hmem.2⟩]
          rw [hentry r c hr hc, if_neg hri, hentry r kk hr hk, if_neg hri,
            hentry kk c hk hc, if_neg (fun h => hik h.symm)]
        · rw [if_neg hmem]
          by_cases hri : r = i
          · rw [if_pos ⟨by simp [hri], fun h => hik (hri ▸ h)⟩]
            rw [hentry r c hr hc, if_pos hri, hri]
            ring
          · rw [hentry r c hr hc, if_neg hri]
            rw [if_neg (fun h => ?_)]
            rcases List.mem_cons.mp h.1 with h1 | h1
            · exact hri h1
            · exact hmem ⟨h1, h.2⟩

/-- The pivot search only reads column `k`, so matrices that agree on that
column search identically. -/
theorem find_congr_aux (D M : Matrix) (k : ℕ) :
    ∀ (l : List ℕ), (∀ i ∈ l, getU D i k = getU M i k) →
      l.find? (fun i => ! nearly_equal (getU D i k) 0)
        = l.find? (fun i => ! nearly_equal (getU M i k) 0)
  | [], _ => rfl
  | a :: l, h => by
      simp only [List.find?]
      rw [h a (by simp)]
      cases (! nearly_equal (getU M a k) 0)
      · exact find_congr_aux D M k l (fun i hi => h i (by simp [hi]))
      · rfl

theorem findPivot_congr {D M : Matrix} {n k : ℕ}
    (h : ∀ i : ℕ, k + 1 ≤ i → i < n → getU D i k = getU M i k) :
    findPivot D n k = findPivot M n k := by
  unfold findPivot
  refine find_congr_aux D M k _ (fun i hi => ?_)
  have := List.mem_range'_1.mp hi
  exact h i this.1 (by omega)

theorem nearly_equal_zero_zero : nearly_equal 0 0 = true :=
  nearly_equal_zero_true (by rw [abs_zero]; exact tau_pos)

/-- Success and entry-level effect of one full `inverse` iteration, in the
no-swap and swap cases. -/
theorem invStep_no_swap {n k : ℕ} (hk : k < n) {M A : Matrix}
    (hMr : M.rows = n) (hMc : M.cols = n) (hAr : A.rows = n) (hAc : A.cols = n)
    (hpiv : nearly_equal (getU M k k) 0 = false) :
    ∃ M3 A3, invStep n k M A = .ok (M3, A3) ∧
      M3.rows = n ∧ M3.cols = n ∧ A3.rows = n ∧ A3.cols = n ∧
      ∀ r c : ℕ, r < n → c < n → r ≠ k →
        getU M3 r c
          = getU M r c - getU M r k * (1 / getU M k k * getU M k c) := by
  have hS : Matrix.elemental_ii n k (1 / getU M k k)
      = .ok (setU (Matrix.identity n) k k (1 / getU M k k)) :=
    elemental_ii_eq hk _
  have hM2r : (Matrix.mulU (setU (Matrix.identity n) k k (1 / getU M k k)) M).rows = n := by
    rw [mulU_rows]; rfl
  have hM2c : (Matrix.mulU (setU (Matrix.identity n) k k (1 / getU M k k)) M).cols = n := by
    rw [mulU_cols, hMc]
  have hA2r : (Matrix.mulU (setU (Matrix.identity n) k k (1 / getU M k k)) A).rows = n := by
    rw [mulU_rows]; rfl
  have hA2c : (Matrix.mulU (setU (Matrix.identity n) k k (1 / getU M k k)) A).cols = n := by
    rw [mulU_cols, hAc]
  obtain ⟨M3, A3, heq, hM3r, hM3c, hA3r, hA3c, hform⟩ :=
    @invElimList_effect n k hk (List.range n) _ _ hM2r hM2c hA2r hA2c
      (List.nodup_range n) (fun x hx => List.mem_range.mp hx)
  have hSC : ∀ x y : ℕ, x < n → y < n →
      getU (Matrix.mulU (setU (Matrix.identity n) k k (1 / getU M k k)) M) x y
      = if x = k then 1 / getU M k k * getU M k y else getU M x y :=
    fun x y hx hy => mulU_scale_entry hk hS x y hx (by rw [hMc]; exact hy)
  refine ⟨M3, A3, ?_, hM3r, hM3c, hA3r, hA3c, fun r c hr hc hrk => ?_⟩
  · unfold invStep invSwap
    dsimp only
    rw [if_neg (by rw [hpiv]; exact Bool.false_ne_true)]
    dsimp only
    rw [hS]
    dsimp only
    rw [multiply_of_cols_eq (by rw [hMr]; rfl), multiply_of_cols_eq (by rw [hAr]; rfl)]
    dsimp only
    exact heq
  · rw [hform r c hr hc, if_pos ⟨List.mem_range.mpr hr, hrk⟩,
      hSC r c hr hc, if_neg hrk, hSC r k hr hk, if_neg hrk, hSC k c hk hc, if_pos rfl]

theorem invStep_swap {n k i : ℕ} (hk : k < n) (hi : i < n) (hki : k ≠ i) {M A : Matrix}
    (hMr : M.rows = n) (hMc : M.cols = n) (hAr : A.rows = n) (hAc : A.cols = n)
    (hpiv : nearly_equal (getU M k k) 0 = true)
    (hfind : findPivot M n k = some i) :
    ∃ M3 A3, invStep n k M A = .ok (M3, A3) ∧
      M3.rows = n ∧ M3.cols = n ∧ A3.rows = n ∧ A3.cols = n ∧
      ∀ r c : ℕ, r < n → c < n → r ≠ k →
        getU M3 r c
          = (if r = i then getU M k c else getU M r c)
            - (if r = i then getU M k k else getU M r k)
              * (1 / getU M i k * getU M i c) := by
  have hP : Matrix.elemental_i n k i
      = .ok (setU (setU (setU (setU (Matrix.identity n) k k 0) k i 1) i i 0) i k 1) :=
    elemental_i_eq hk hi
  have hM1r : (Matrix.mulU
      (setU (setU (setU (setU (Matrix.identity n) k k 0) k i 1) i i 0) i k 1) M).rows
      = n := by rw [mulU_rows]; rfl
  have hM1c : (Matrix.mulU
      (setU (setU (setU (setU (Matrix.identity n) k k 0) k i 1) i i 0) i k 1) M).cols
      = n := by rw [mulU_cols, hMc]
  have hA1r : (Matrix.mulU
      (setU (setU (setU (setU (Matrix.identity n) k k 0) k i 1) i i 0) i k 1) A).rows
      = n := by rw [mulU_rows]; rfl
  have hA1c : (Matrix.mulU
      (setU (setU (setU (setU (Matrix.identity n) k k 0) k i 1) i i 0) i k 1) A).cols
      = n := by rw [mulU_cols, hAc]
  have hPM : ∀ x y : ℕ, x < n → y < n →
      getU (Matrix.mulU
        (setU (setU (setU (setU (Matrix.identity n) k k 0) k i 1) i i 0) i k 1) M) x y
      = if x = k then getU M i y else if x = i then getU M k y else getU M x y :=
    fun x y hx hy => mulU_perm_entry hki hk hi hP x y hx (by rw [hMc]; exact hy)
  have hS : Matrix.elemental_ii n k (1 / getU M i k)
      = .ok (setU (Matrix.identity n) k k (1 / getU M i k)) :=
    elemental_ii_eq hk _
  have hM2r : (Matrix.mulU (setU (Matrix.identity n) k k (1 / getU M i k))
      (Matrix.mulU
        (setU (setU (setU (setU (Matrix.identity n) k k 0) k i 1) i i 0) i k 1) M)).rows
      = n := by rw [mulU_rows]; rfl
  have hM2c : (Matrix.mulU (setU (Matrix.identity n) k k (1 / getU M i k))
      (Matrix.mulU
        (setU (setU (setU (setU (Matrix.identity n) k k 0) k i 1) i i 0) i k 1) M)).cols
      = n := by rw [mulU_cols, hM1c]
  have hA2r : (Matrix.mulU (setU (Matrix.identity n) k k (1 / getU M i k))
      (Matrix.mulU
        (setU (setU (setU (setU (Matrix.identity n) k k 0) k i 1) i i 0) i k 1) A)).rows
      = n := by rw [mulU_rows]; rfl
  have hA2c : (Matrix.mulU (setU (Matrix.identity n) k k (1 / getU M i k))
      (Matrix.mulU
        (setU (setU (setU (setU (Matrix.identity n) k k 0) k i 1) i i 0) i k 1) A)).cols
      = n := by rw [mulU_cols, hA1c]
  obtain ⟨M3, A3, heq, hM3r, hM3c, hA3r, hA3c, hform⟩ :=
    @invElimList_effect n k hk (List.range n) _ _ hM2r hM2c hA2r hA2c
      (List.nodup_range n) (fun x hx => List.mem_range.mp hx)
  have hSC : ∀ x y : ℕ, x < n → y < n →
      getU (Matrix.mulU (setU (Matrix.identity n) k k (1 / getU M i k))
        (Matrix.mulU
          (setU (setU (setU (setU (Matrix.identity n) k k 0) k i 1) i i 0) i k 1) M)) x y
      = if x = k
        then 1 / getU M i k * getU (Matrix.mulU
          (setU (setU (setU (setU (Matrix.identity n) k k 0) k i 1) i i 0) i k 1) M) k y
        else getU (Matrix.mulU
          (setU (setU (setU (setU (Matrix.identity n) k k 0) k i 1) i i 0) i k 1) M) x y :=
    fun x y hx hy => mulU_scale_entry hk hS x y hx (by rw [hM1c]; exact hy)
  refine ⟨M3, A3, ?_, hM3r, hM3c, hA3r, hA3c, fun r c hr hc hrk => ?_⟩
  · unfold invStep invSwap
    dsimp only
    rw [if_pos hpiv, hfind]
    dsimp only
    rw [hP]
    dsimp only
    rw [multiply_of_cols_eq (by rw [hMr]; rfl), multiply_of_cols_eq (by rw [hAr]; rfl)]
    dsimp only
    rw [hS]
    dsimp only
    rw [multiply_of_cols_eq (by rw [hM1r]; rfl), multiply_of_cols_eq (by rw [hA1r]; rfl)]
    dsimp only
    exact heq
  · rw [hform r c hr hc, if_pos ⟨List.mem_range.mpr hr, hrk⟩,
      hSC r c hr hc, if_neg hrk, hSC r k hr hk, if_neg hrk, hSC k c hk hc, if_pos rfl,
      hPM r c hr hc, if_neg hrk, hPM r k hr hk, if_neg hrk, hPM k c hk hc, if_pos rfl]

/-- One-step unfoldings of the determinant and inverse main loops. -/
theorem detGo_cons_nonzero {n k : ℕ} {ks : List ℕ} {D : Matrix} {det : ℚ}
    (h : nearly_equal (getU D k k) 0 = false) :
    detGo n (k :: ks) D det
      = detGo n ks (elimBelow D n k (getU D k k))
          (det * getU (elimBelow D n k (getU D k k)) k k) := by
  conv_lhs => unfold detGo
  dsimp only
  rw [if_neg (by rw [h]; exact Bool.false_ne_true)]

theorem detGo_cons_swap {n k i : ℕ} {ks : List ℕ} {D : Matrix} {det : ℚ}
    (h : nearly_equal (getU D k k) 0 = true) (hf : findPivot D n k = some i) :
    detGo n (k :: ks) D det
      = detGo n ks (elimBelow (swapRowsFull D n k i) n k (getU D i k))
          (-det * getU (elimBelow (swapRowsFull D n k i) n k (getU D i k)) k k) := by
  conv_lhs => unfold detGo
  dsimp only
  rw [if_pos h, hf]

theorem detGo_cons_none {n k : ℕ} {ks : List ℕ} {D : Matrix} {det : ℚ}
    (h : nearly_equal (getU D k k) 0 = true) (hf : findPivot D n k = none) :
    detGo n (k :: ks) D det = 0 := by
  conv_lhs => unfold detGo
  dsimp only
  rw [if_pos h, hf]

theorem invGo_cons {n k : ℕ} {ks : List ℕ} {M A m3 a3 : Matrix}
    (h : invStep n k M A = .ok (m3, a3)) :
    invGo n (k :: ks) M A = invGo n ks m3 a3 := by
  conv_lhs => unfold invGo
  rw [h]

/-- After one elimination step the determinant working matrix and the
inverse working matrix still agree on the remaining lower-right region. -/
theorem region_step_noswap {n k : ℕ} {D M M3 : Matrix}
    (hk : k < n) (hDr : D.rows = n) (hDc : D.cols = n) (hDwf : D.wf)
    (hreg : ∀ x y : ℕ, k ≤ x → x < n → k ≤ y → y < n → getU D x y = getU M x y)
    (hform : ∀ r c : ℕ, r < n → c < n → r ≠ k →
      getU M3 r c = getU M r c - getU M r k * (1 / getU M k k * getU M k c)) :
    ∀ x y : ℕ, k + 1 ≤ x → x < n → k + 1 ≤ y → y < n →
      getU (elimBelow D n k (getU D k k)) x y = getU M3 x y := by
  intro x y hx1 hxn hy1 hyn
  have hD2e : getU (elimBelow D n k (getU D k k)) x y
      = getU D x y - getU D x k / getU D k k * getU D k y := by
    unfold elimBelow
    rw [elimBelowGo_entry (getU D k k) hk hDwf hDr hDc
      (List.nodup_range' (k + 1) (n - (k + 1)))
      (fun z hz => by have := List.mem_range'_1.mp hz; omega) x y hyn]
    rw [if_pos ⟨List.mem_range'_1.mpr ⟨hx1, by omega⟩, by omega, hyn⟩]
  rw [hD2e, hform x y hxn hyn (by omega),
    hreg x y (by omega) hxn (by omega) hyn,
    hreg x k (by omega) hxn (le_refl k) hk,
    hreg k y (le_refl k) hk (by omega) hyn,
    hreg k k (le_refl k) hk (le_refl k) hk]
  ring

theorem region_step_swap {n k i : ℕ} {D M M3 : Matrix}
    (hk : k < n) (hi : i < n) (hk1i : k + 1 ≤ i)
    (hDr : D.rows = n) (hDc : D.cols = n) (hDwf : D.wf)
    (hreg : ∀ x y : ℕ, k ≤ x → x < n → k ≤ y → y < n → getU D x y = getU M x y)
    (hform : ∀ r c : ℕ, r < n → c < n → r ≠ k →
      getU M3 r c = (if r = i then getU M k c else getU M r c)
        - (if r = i then getU M k k else getU M r k)
          * (1 / getU M i k * getU M i c)) :
    ∀ x y : ℕ, k + 1 ≤ x → x < n → k + 1 ≤ y → y < n →
      getU (elimBelow (swapRowsFull D n k i) n k (getU D i k)) x y = getU M3 x y := by
  have hki : k ≠ i := by omega
  have hD1wf : (swapRowsFull D n k i).wf := swapGo_wf hDwf
  have hD1r : (swapRowsFull D n k i).rows = n := by
    unfold swapRowsFull; rw [swapGo_rows]; exact hDr
  have hD1c : (swapRowsFull D n k i).cols = n := by
    unfold swapRowsFull; rw [swapGo_cols]; exact hDc
  have hD1 : ∀ u v : ℕ, v < n → getU (swapRowsFull D n k i) u v
      = if u = k ∧ v ∈ List.range n then getU D i v
        else if u = i ∧ v ∈ List.range n then getU D k v
        else getU D u v := fun u v hv => by
    unfold swapRowsFull
    exact swapGo_entry hki hDwf (by rw [hDr]; exact hk) (by rw [hDr]; exact hi)
      (List.nodup_range n) (fun j hj => by rw [hDc]; exact List.mem_range.mp hj)
      u v (by rw [hDc]; exact hv)
  intro x y hx1 hxn hy1 hyn
  have hD2e : getU (elimBelow (swapRowsFull D n k i) n k (getU D i k)) x y
      = getU (swapRowsFull D n k i) x y
        - getU (swapRowsFull D n k i) x k / getU D i k
          * getU (swapRowsFull D n k i) k y := by
    unfold elimBelow
    rw [elimBelowGo_entry (getU D i k) hk hD1wf hD1r hD1c
      (List.nodup_range' (k + 1) (n - (k + 1)))
      (fun z hz => by have := List.mem_range'_1.mp hz; omega) x y hyn]
    rw [if_pos ⟨List.mem_range'_1.mpr ⟨hx1, by omega⟩, by omega, hyn⟩]
  have hxk : ¬ x = k := by omega
  by_cases hxi : x = i
  · rw [hD2e,
      hD1 x y hyn, if_neg (fun h => hxk h.1),
      if_pos ⟨hxi, List.mem_range.mpr hyn⟩,
      hD1 x k hk, if_neg (fun h => hxk h.1),
      if_pos ⟨hxi, List.mem_range.mpr hk⟩,
      hD1 k y hyn, if_pos ⟨rfl, List.mem_range.mpr hyn⟩,
      hform x y hxn hyn hxk, if_pos hxi, if_pos hxi,
      hreg k y (le_refl k) hk (by omega) hyn,
      hreg k k (le_refl k) hk (le_refl k) hk,
      hreg i y (by omega) hi (by omega) hyn,
      hreg i k (by omega) hi (le_refl k) hk]
    ring
  · rw [hD2e,
      hD1 x y hyn, if_neg (fun h => hxk h.1), if_neg (fun h => hxi h.1),
      hD1 x k hk, if_neg (fun h => hxk h.1), if_neg (fun h => hxi h.1),
      hD1 k y hyn, if_pos ⟨rfl, List.mem_range.mpr hyn⟩,
      hform x y hxn hyn hxk, if_neg hxi, if_neg hxi,
      hreg x y (by omega) hxn (by omega) hyn,
      hreg x k (by omega) hxn (le_refl k) hk,
      hreg i y (by omega) hi (by omega) hyn,
      hreg i k (by omega) hi (le_refl k) hk]
    ring

/-- Simulation between the determinant elimination and the Gauss-Jordan
loop of `inverse`: as long as the determinant run never exits through the
no-pivot branch (which would return exactly 0), the two working matrices
agree on the remaining region, the pivot searches coincide, and `invGo`
succeeds. -/
theorem det_inv_sim {n : ℕ} :
    ∀ (cnt k : ℕ), k + cnt = n →
      ∀ {D M A : Matrix} {det : ℚ},
        D.rows = n → D.cols = n → D.wf →
        M.rows = n → M.cols = n → A.rows = n → A.cols = n →
        (∀ x y : ℕ, k ≤ x → x < n → k ≤ y → y < n → getU D x y = getU M x y) →
        nearly_equal (detGo n (List.range' k cnt) D det) 0 = false →
        ∃ B, invGo n (List.range' k cnt) M A = .ok B
  | 0, k, _, _, M, A, det, _, _, _, _, _, _, _, _, _ => ⟨A, rfl⟩
  | cnt + 1, k, hkn, D, M, A, det, hDr, hDc, hDwf, hMr, hMc, hAr, hAc, hreg, hdet => by
      have hk : k < n := by omega
      rw [List.range'_succ k cnt 1] at hdet ⊢
      have hDMkk : getU D k k = getU M k k := hreg k k (le_refl k) hk (le_refl k) hk
      cases hpiv : nearly_equal (getU D k k) 0 with
      | false =>
        rw [detGo_cons_nonzero hpiv] at hdet
        have hpivM : nearly_equal (getU M k k) 0 = false := by rw [← hDMkk]; exact hpiv
        obtain ⟨M3, A3, hstep, hM3r, hM3c, hA3r, hA3c, hform⟩ :=
          invStep_no_swap hk hMr hMc hAr hAc hpivM
        have hD2wf : (elimBelow D n k (getU D k k)).wf := elimBelowGo_wf hDwf
        have hD2r : (elimBelow D n k (getU D k k)).rows = n := by
          unfold elimBelow; rw [elimBelowGo_rows]; exact hDr
        have hD2c : (elimBelow D n k (getU D k k)).cols = n := by
          unfold elimBelow; rw [elimBelowGo_cols]; exact hDc
        obtain ⟨B, hB⟩ := det_inv_sim cnt (k + 1) (by omega)
          hD2r hD2c hD2wf hM3r hM3c hA3r hA3c
          (region_step_noswap hk hDr hDc hDwf hreg hform) hdet
        exact ⟨B, by rw [invGo_cons hstep]; exact hB⟩
      | true =>
        have hpivM : nearly_equal (getU M k k) 0 = true := by rw [← hDMkk]; exact hpiv
        have hcol : ∀ x : ℕ, k + 1 ≤ x → x < n → getU D x k = getU M x k :=
          fun x h1 h2 => hreg x k (by omega) h2 (le_refl k) hk
        have hfp : findPivot D n k = findPivot M n k := findPivot_congr hcol
        cases hfind : findPivot D n k with
        | none =>
          rw [detGo_cons_none hpiv hfind, nearly_equal_zero_zero] at hdet
          exact absurd hdet (by simp)
        | some i =>
          rw [detGo_cons_swap hpiv hfind] at hdet
          have hmem : i ∈ List.range' (k + 1) (n - (k + 1)) := by
            have hfind' := hfind
            unfold findPivot at hfind'
            exact List.mem_of_find?_eq_some hfind'
          have hbounds := List.mem_range'_1.mp hmem
          have hi : i < n := by omega
          have hki : k ≠ i := by omega
          obtain ⟨M3, A3, hstep, hM3r, hM3c, hA3r, hA3c, hform⟩ :=
            invStep_swap hk hi hki hMr hMc hAr hAc hpivM (by rw [← hfp]; exact hfind)
          have hD2wf : (elimBelow (swapRowsFull D n k i) n k (getU D i k)).wf :=
            elimBelowGo_wf (swapGo_wf hDwf)
          have hD2r : (elimBelow (swapRowsFull D n k i) n k (getU D i k)).rows = n := by
            unfold elimBelow swapRowsFull
            rw [elimBelowGo_rows, swapGo_rows]; exact hDr
          have hD2c : (elimBelow (swapRowsFull D n k i) n k (getU D i k)).cols = n := by
            unfold elimBelow swapRowsFull
            rw [elimBelowGo_cols, swapGo_cols]; exact hDc
          obtain ⟨B, hB⟩ := det_inv_sim cnt (k + 1) (by omega)
            hD2r hD2c hD2wf hM3r hM3c hA3r hA3c
            (region_step_swap hk hi hbounds.1 hDr hDc hDwf hreg hform) hdet
          exact ⟨B, by rw [invGo_cons hstep]; exact hB⟩

/-- Whenever the up-front determinant of a square matrix is
tolerance-nonzero, the Gauss-Jordan loop of `inverse` cannot fail. -/
theorem inverse_succeeds {A : Matrix} {d : ℚ} (hwf : A.wf) (hsq : A.rows = A.cols)
    (hdet : Matrix.determinant A = .ok d) (hne : nearly_equal d 0 = false) :
    ∃ B, Matrix.inverse A = .ok B := by
  have hsq' : Matrix.is_square A = true := by
    unfold Matrix.is_square
    rw [hsq]
    exact beq_self_eq_true _
  have hd : d = detGo A.rows (List.range A.rows) A 1 := by
    unfold Matrix.determinant at hdet
    rw [hsq'] at hdet
    simp only [Bool.not_true] at hdet
    rw [if_neg Bool.false_ne_true] at hdet
    injection hdet with hdet
    exact hdet.symm
  have hdet' : nearly_equal (detGo A.rows (List.range' 0 A.rows) A 1) 0 = false := by
    rw [← List.range_eq_range', ← hd]
    exact hne
  unfold Matrix.inverse
  rw [hsq']
  simp only [Bool.not_true]
  rw [if_neg Bool.false_ne_true, hdet]
  dsimp only
  rw [if_neg (by rw [hne]; exact Bool.false_ne_true)]
  rw [List.range_eq_range']
  exact det_inv_sim A.rows 0 (by omega) rfl hsq.symm hwf rfl hsq.symm
    (identity_rows A.rows) (identity_cols A.rows)
    (fun x y _ _ _ _ => rfl) hdet'

/-! ### C3: the fast path of linsolve on invertible systems -/
/-- C3: for every square well-formed matrix `A` whose determinant is
tolerance-nonzero and every `b` with `A.rows == b.rows` and `b.cols == 1`,
`linsolve(Matrix(A), Matrix(b))` takes the fast path and succeeds,
returning exactly `multiply(inverse(A), b)`. -/
theorem c3_fast_path {A b : Matrix} {d : ℚ} (hwf : A.wf) (hsq : A.rows = A.cols)
    (hdet : Matrix.determinant A = .ok d) (hne : nearly_equal d 0 = false)
    (hrows : A.rows = b.rows) (hcols : b.cols = 1) :
    ∃ Ai x, Matrix.inverse A = .ok Ai ∧ Matrix.multiply Ai b = .ok x ∧
      Fn.linsolve (.Matrix A) (.Matrix b) = .ok (.Matrix x) := by
  have hsq' : Matrix.is_square A = true := by
    unfold Matrix.is_square
    rw [hsq]
    exact beq_self_eq_true _
  obtain ⟨Ai, hAi⟩ := inverse_succeeds hwf hsq hdet hne
  have hAid := inverse_ok_dims hAi
  have hmul : Matrix.multiply Ai b = .ok (Matrix.mulU Ai b) :=
    multiply_of_cols_eq (by rw [hAid.2, hrows])
  refine ⟨Ai, Matrix.mulU Ai b, hAi, hmul, ?_⟩
  unfold Fn.linsolve
  dsimp only
  rw [if_neg (fun h => h hrows), if_neg (fun h => h hcols), if_pos hsq', hdet]
  dsimp only
  rw [hne]
  simp only [Bool.not_false]
  rw [if_pos trivial, hAi]
  dsimp only
  rw [hmul]

/-- Closed instance of `c3_fast_path`: the spec example
`linsolve([[2,1],[1,1]], [[3],[2]])`, with determinant `1`, inverse
`[[1,-1],[-1,2]]` and unique solution `[[1],[1]]`. -/
theorem c3_fast_path_witness :
    (Matrix.mk 2 2 [2, 1, 1, 1]).wf ∧
    (Matrix.mk 2 2 [2, 1, 1, 1]).rows = (Matrix.mk 2 2 [2, 1, 1, 1]).cols ∧
    Matrix.determinant (Matrix.mk 2 2 [2, 1, 1, 1]) = .ok 1 ∧
    nearly_equal 1 0 = false ∧
    (Matrix.mk 2 2 [2, 1, 1, 1]).rows = (Matrix.mk 2 1 [3, 2]).rows ∧
    (Matrix.mk 2 1 [3, 2]).cols = 1 ∧
    ∃ Ai x, Matrix.inverse (Matrix.mk 2 2 [2, 1, 1, 1]) = .ok Ai ∧
      Matrix.multiply Ai (Matrix.mk 2 1 [3, 2]) = .ok x ∧
      Fn.linsolve (.Matrix (Matrix.mk 2 2 [2, 1, 1, 1]))
        (.Matrix (Matrix.mk 2 1 [3, 2])) = .ok (.Matrix x) :=
  ⟨by decide, by decide, by with_unfolding_all decide, by with_unfolding_all decide,
    by decide, by decide,
    @c3_fast_path (Matrix.mk 2 2 [2, 1, 1, 1]) (Matrix.mk 2 1 [3, 2]) 1
      (by decide) (by decide) (by with_unfolding_all decide)
      (by with_unfolding_all decide) (by decide) (by decide)⟩

end Matec
